import Mathlib

/-!
# Verification of the `topdep` dependents scraper

A shallow embedding of `src/main.go` (the active generation of the tool:
record shape with `name`, `url`, `stars`, `forks`).  Pure string and list
manipulation is translated function-for-function from the Go source; the
calls into the Go standard library (`strings.TrimSpace`,
`strings.ReplaceAll`, `strconv.Atoi`, `sort.Slice`, `encoding/json`) are
modelled by their documented, deterministic semantics, except `sort.Slice`
whose element order on ties is explicitly unspecified by its documentation
("The sort is not guaranteed to be stable"); that call is modelled by its
documented postcondition as a relation.
-/

namespace Topdep

/-- The `Repo` struct of `main.go` (lines 27-32).  Go `int` is modelled as
`Int`; the 64-bit bounds enter only where the Go code can observe them
(`strconv` parsing, JSON decoding). -/
structure Repo where
  name : String
  url : String
  stars : Int
  forks : Int
deriving DecidableEq, Repr

/-- `githubURL` constant from `main.go` line 20. -/
def githubURL : String := "https://github.com"

/-! ## Models of the Go standard-library string and strconv functions -/

/-- Characters accepted by Go's `unicode.IsSpace` (the White_Space
property): the Latin-1 cases plus the Unicode space separators. -/
def goIsSpace (c : Char) : Bool :=
  c = ' ' ∨ c = '\t' ∨ c = '\n' ∨ c.toNat = 0xB ∨ c.toNat = 0xC ∨ c = '\r' ∨
  c.toNat = 0x85 ∨ c.toNat = 0xA0 ∨ c.toNat = 0x1680 ∨
  (0x2000 ≤ c.toNat ∧ c.toNat ≤ 0x200A) ∨ c.toNat = 0x2028 ∨ c.toNat = 0x2029 ∨
  c.toNat = 0x202F ∨ c.toNat = 0x205F ∨ c.toNat = 0x3000

/-- `strings.TrimSpace`: drop White_Space characters from both ends. -/
def goTrimSpace (s : String) : String :=
  String.mk (((s.data.dropWhile goIsSpace).reverse.dropWhile goIsSpace).reverse)

/-- `strings.ReplaceAll(s, ",", "")`: every comma is removed (replacement
by the empty string deletes each occurrence). -/
def removeCommas (s : String) : String :=
  String.mk (s.data.filter (fun c => c ≠ ','))

/-- Error component of Go's `strconv` result (`ErrSyntax` / `ErrRange`). -/
inductive NumErr where
  | errSyntax
  | errRange
deriving DecidableEq, Repr

/-- Largest Go `int` (64-bit platform). -/
def int64Max : Int := 9223372036854775807

/-- Smallest Go `int` (64-bit platform). -/
def int64Min : Int := -9223372036854775808

/-- Decimal value of a digit string, most-significant first. -/
def digitsVal (ds : List Char) : Nat :=
  ds.foldl (fun a c => a * 10 + (c.toNat - 48)) 0

/-- The `int64` range check of `strconv.ParseInt`: a value outside the
range is clamped to the nearer bound with `ErrRange`; otherwise it is
returned with no error. -/
def goClamp (v : Int) : Int × Option NumErr :=
  if v > int64Max then (int64Max, some NumErr.errRange)
  else if v < int64Min then (int64Min, some NumErr.errRange)
  else (v, none)

/-- Digit-run handling shared by both sign cases of `strconv.Atoi`: a lone
sign or any non-digit gives `(0, ErrSyntax)`; otherwise the digits' value,
negated under a minus sign, goes through the range check. -/
def goAtoiCore (neg : Bool) (ds : List Char) : Int × Option NumErr :=
  if ds = [] then (0, some NumErr.errSyntax)
  else if ¬ (ds.all Char.isDigit) then (0, some NumErr.errSyntax)
  else goClamp (cond neg (-(digitsVal ds : Int)) (digitsVal ds : Int))

/-- Sign handling of `strconv.Atoi`: an optional single leading `+` or `-`
before the digit run; empty input is a syntax error. -/
def goAtoiChars : List Char → Int × Option NumErr
  | [] => (0, some NumErr.errSyntax)
  | c :: cs =>
    if c = '-' then goAtoiCore true cs
    else if c = '+' then goAtoiCore false cs
    else goAtoiCore false (c :: cs)

/-- `strconv.Atoi` on a 64-bit platform (`ParseInt(s, 10, 0)`). -/
def goAtoi (s : String) : Int × Option NumErr := goAtoiChars s.data

/-- The numeric-field pipeline of `main.go` lines 130-134: the scraped text
is trimmed, commas are removed, and `strconv.Atoi` is applied with its
error discarded (`stars, _ := strconv.Atoi(...)`). -/
def parseNumField (raw : String) : Int :=
  (goAtoi (removeCommas (goTrimSpace raw))).1

/-! ## Page extraction (`fetchDependents` loop body, lines 124-147) -/

/-- The data the goquery selectors deliver for one dependent row: the text
of the repository link, its `href` attribute (absent when the page omits
it), and the raw star and fork texts. -/
structure RowHTML where
  nameText : String
  href : Option String
  starsText : String
  forksText : String
deriving DecidableEq, Repr

/-- Lines 124-147 of `main.go`, for one row: trim the link text, default a
missing `href` to the empty string (`repoURL, _ := repoElement.Attr`),
prefix the GitHub host, and parse the numeric fields. -/
def extractRepo (row : RowHTML) : Repo :=
  { name := goTrimSpace row.nameText
    url := githubURL ++ row.href.getD ""
    stars := parseNumField row.starsText
    forks := parseNumField row.forksText }

/-! ## The ranking pipeline (`sortRepos`, lines 177-193)

`sortRepos` first calls `sort.Slice(repos, less)` with
`less i j := repos[i].Stars > repos[j].Stars`, mutating its argument slice
in place, then scans the sorted slice.  Go documents `sort.Slice` as "not
guaranteed to be stable", so the slice's post-state is modelled
relationally by the documented postcondition: a permutation of the input
that is sorted with respect to `less`. -/

/-- The slice is sorted for the comparator
`less i j := stars i > stars j`: no later element has strictly more stars,
i.e. stars are non-increasing. -/
def GoSortedByStars (l : List Repo) : Prop :=
  l.Pairwise (fun a b => b.stars ≤ a.stars)

instance (l : List Repo) : Decidable (GoSortedByStars l) :=
  List.instDecidablePairwise l

/-- Documented postcondition of `sort.Slice repos less` on `main.go` lines
178-180: the post-state of the slice is a permutation of its pre-state and
is sorted per the comparator.  Tie order is deliberately unconstrained. -/
def SortSliceSpec (repos sortedRepos : List Repo) : Prop :=
  repos.Perm sortedRepos ∧ GoSortedByStars sortedRepos

/-- Lines 182-190 of `main.go`: scan the (sorted) slice, appending records
with `Stars >= minStar` to `result`, and break as soon as
`len(result) == rows` — the length test runs after the conditional append.
`acc` is the `result` accumulator. -/
def selectLoop (rows minStar : Int) (acc : List Repo) : List Repo → List Repo
  | [] => acc
  | repo :: rest =>
    let acc2 := if minStar ≤ repo.stars then acc ++ [repo] else acc
    if (acc2.length : Int) = rows then acc2 else selectLoop rows minStar acc2 rest

/-- `sortRepos repos rows minStar` as a relation: `sortedRepos` is the
post-state of the caller's slice after the in-place `sort.Slice`, and
`result` is the returned fresh slice built by the scan loop. -/
def sortReposRel (repos : List Repo) (rows minStar : Int)
    (sortedRepos result : List Repo) : Prop :=
  SortSliceSpec repos sortedRepos ∧ result = selectLoop rows minStar [] sortedRepos

instance (repos : List Repo) (rows minStar : Int) (sortedRepos result : List Repo) :
    Decidable (sortReposRel repos rows minStar sortedRepos result) := by
  unfold sortReposRel SortSliceSpec
  infer_instance

/-! ## The pagination walk (`fetchDependents`, lines 80-175)

Each iteration issues one HTTP GET on the current URL, parses the body,
extracts the dependent rows, then looks for a `Next` pagination link: if
absent the loop ends, otherwise the link's `href` (defaulted to the empty
string when the attribute is missing, because the error of `Attr` is
discarded) becomes the next URL.  The network is modelled as a function
from URL to observed page result; the unbounded `for` loop is modelled
with fuel, `outOfFuel` marking a run that did not terminate within it. -/

/-- What one iteration observes for a URL: the HTTP GET failed, the body
failed to parse as HTML, or a parsed page carrying its dependent rows and
its optional `Next` link (whose `href` attribute may itself be absent). -/
inductive PageResult where
  | fetchFail (msg : String)
  | parseFail (msg : String)
  | page (rows : List RowHTML) (next : Option (Option String))
deriving DecidableEq, Repr

/-- The network boundary: what each URL returns when requested. -/
def World : Type := String → PageResult

/-- The Go return pair `([]Repo, error)`: `done repos err` mirrors
`return repos, nil` (then `repos = some _`, `err = none`) and
`return nil, err` (then `repos = none`, `err = some _`); `outOfFuel` marks
a run that exhausted the model's fuel without returning. -/
inductive FetchOutcome where
  | done (repos : Option (List Repo)) (err : Option String)
  | outOfFuel
deriving DecidableEq, Repr

/-- `true` on the results that make the loop return an error. -/
def pageFails : PageResult → Bool
  | PageResult.fetchFail _ => true
  | PageResult.parseFail _ => true
  | PageResult.page _ _ => false

/-- The `for` loop of `fetchDependents` (lines 109-163).  Returns the list
of URLs requested, in order, together with the outcome.  `repos` is the
running accumulator of extracted records. -/
def fetchLoop (world : World) : Nat → String → List Repo → List String × FetchOutcome
  | 0, _, _ => ([], FetchOutcome.outOfFuel)
  | fuel + 1, pageURL, repos =>
    match world pageURL with
    | PageResult.fetchFail msg =>
      ([pageURL],
        FetchOutcome.done none (some ("failed to fetch page " ++ pageURL ++ ": " ++ msg)))
    | PageResult.parseFail msg =>
      ([pageURL],
        FetchOutcome.done none (some ("failed to parse page " ++ pageURL ++ ": " ++ msg)))
    | PageResult.page rows next =>
      let repos2 := repos ++ rows.map extractRepo
      match next with
      | none => ([pageURL], FetchOutcome.done (some repos2) none)
      | some href =>
        let rec2 := fetchLoop world fuel (href.getD "") repos2
        (pageURL :: rec2.1, rec2.2)

/-- Line 86: `fmt.Sprintf("%s/network/dependents?dependent_type=%s", url, dependentType)`
with `dependentType` from lines 81-84. -/
def initialURL (url : String) (isRepositories : Bool) : String :=
  url ++ "/network/dependents?dependent_type=" ++
    (if isRepositories then "REPOSITORY" else "PACKAGE")

/-- `fetchDependents(url, isRepositories)` run against a modelled network,
reporting the requested URLs alongside the Go return value.  Progress
reporting (lines 93-107, 121-122, 149-156, 165-172) only prints counters
and is omitted as it has no effect on the return value. -/
def fetchDependents (world : World) (url : String) (isRepositories : Bool)
    (fuel : Nat) : List String × FetchOutcome :=
  fetchLoop world fuel (initialURL url isRepositories) []

/-- `world` serves a finite chain of listing pages: request `i` of `urls`
answers with the rows `pages[i]` and a `Next` link to `urls[i+1]`, except
the last page, which has no `Next` link. -/
def ChainWorld (world : World) (urls : List String) (pages : List (List RowHTML)) : Prop :=
  urls.length = pages.length ∧
  ∀ i, i < urls.length →
    world (urls.getD i "") =
      PageResult.page (pages.getD i [])
        (if i + 1 < urls.length then some (some (urls.getD (i + 1) "")) else none)

instance (world : World) (urls : List String) (pages : List (List RowHTML)) :
    Decidable (ChainWorld world urls pages) := by
  unfold ChainWorld
  infer_instance

/-! ## JSON output (`displayJSON`, lines 207-214)

`displayJSON` runs `json.MarshalIndent(repos, "", "  ")` and prints the
bytes with `fmt.Println`.  The encoder below reproduces Go's output
character for character, in continuation style (each builder takes the
characters that follow, mirroring the encoder's buffer appends):

* a nil slice — which is what `sortRepos` returns when it kept nothing —
  marshals as `null`;
* a non-empty slice marshals as a two-space-indented array of objects with
  fields `name`, `url`, `stars`, `forks` in struct order;
* strings are quoted with Go's escaping (escapeHTML on): `"` and `\`
  get backslash escapes, `\n`/`\r`/`\t` their short forms, other control
  characters `\u00xx`, the HTML characters `<`, `>`, `&` become
  `<`/`>`/`&`, and U+2028/U+2029 are escaped; every other
  character is written verbatim;
* integers are written in decimal with a leading `-` when negative. -/

/-- Lower-case hexadecimal digit, as Go's encoder writes it. -/
def hexDigitChar (n : Nat) : Char :=
  if n < 10 then Char.ofNat (48 + n) else Char.ofNat (87 + n)

/-- Go's JSON escaping (with HTML escaping, the `json.Marshal` default)
of one character. -/
def jsonEscapeChar (c : Char) : List Char :=
  if c = '"' then ['\\', '"']
  else if c = '\\' then ['\\', '\\']
  else if c = '\n' then ['\\', 'n']
  else if c = '\r' then ['\\', 'r']
  else if c = '\t' then ['\\', 't']
  else if c = '<' ∨ c = '>' ∨ c = '&' then
    ['\\', 'u', '0', '0', hexDigitChar (c.toNat / 16), hexDigitChar (c.toNat % 16)]
  else if c.toNat < 0x20 then
    ['\\', 'u', '0', '0', hexDigitChar (c.toNat / 16), hexDigitChar (c.toNat % 16)]
  else if c.toNat = 0x2028 ∨ c.toNat = 0x2029 then
    ['\\', 'u', '2', '0', '2', hexDigitChar (c.toNat % 16)]
  else [c]

/-- The escaped body of a JSON string followed by its closing quote and
then `rest`. -/
def escBodyTo : List Char → List Char → List Char
  | [], rest => '"' :: rest
  | c :: cs, rest => jsonEscapeChar c ++ escBodyTo cs rest

/-- A quoted JSON string followed by `rest`. -/
def quoteTo (s : String) (rest : List Char) : List Char :=
  '"' :: escBodyTo s.data rest

/-- Digits of `n`, most significant first, empty for 0 (fuelled by the
number itself, which always dominates its digit count). -/
def natDecCharsAux : Nat → Nat → List Char
  | 0, _ => []
  | fuel + 1, n =>
    if n = 0 then []
    else natDecCharsAux fuel (n / 10) ++ [Char.ofNat (48 + n % 10)]

/-- Decimal digits of `n`, most significant first (`"0"` for 0). -/
def natDecChars (n : Nat) : List Char :=
  if n = 0 then ['0'] else natDecCharsAux n n

/-- Go's decimal rendering of an integer. -/
def intDecChars (i : Int) : List Char :=
  if i < 0 then '-' :: natDecChars i.natAbs else natDecChars i.natAbs

/-- A decimal integer followed by `rest`. -/
def intTo (i : Int) (rest : List Char) : List Char := intDecChars i ++ rest

/-- The `"forks"` member line, the object's closing line, then `rest`. -/
def memForks (r : Repo) (rest : List Char) : List Char :=
  ' ' :: ' ' :: ' ' :: ' ' :: '"' :: 'f' :: 'o' :: 'r' :: 'k' :: 's' :: '"' :: ':' :: ' ' ::
  intTo r.forks ('\n' :: ' ' :: ' ' :: '}' :: rest)

/-- The `"stars"` member line and everything after it. -/
def memStars (r : Repo) (rest : List Char) : List Char :=
  ' ' :: ' ' :: ' ' :: ' ' :: '"' :: 's' :: 't' :: 'a' :: 'r' :: 's' :: '"' :: ':' :: ' ' ::
  intTo r.stars (',' :: '\n' :: memForks r rest)

/-- The `"url"` member line and everything after it. -/
def memUrl (r : Repo) (rest : List Char) : List Char :=
  ' ' :: ' ' :: ' ' :: ' ' :: '"' :: 'u' :: 'r' :: 'l' :: '"' :: ':' :: ' ' ::
  quoteTo r.url (',' :: '\n' :: memStars r rest)

/-- The `"name"` member line and everything after it. -/
def memName (r : Repo) (rest : List Char) : List Char :=
  ' ' :: ' ' :: ' ' :: ' ' :: '"' :: 'n' :: 'a' :: 'm' :: 'e' :: '"' :: ':' :: ' ' ::
  quoteTo r.name (',' :: '\n' :: memUrl r rest)

/-- One `Repo` as `MarshalIndent` renders it at element depth: the object
opens after the two-space element indent, each field sits on its own line
under a four-space indent as `"field": value`, fields in struct order. -/
def repoObjTo (r : Repo) (rest : List Char) : List Char :=
  ' ' :: ' ' :: '{' :: '\n' :: memName r rest

/-- The comma-separated element objects of a non-empty array, ending with
the closing `]` and then `rest`. -/
def repoItemsTo : List Repo → List Char → List Char
  | [], rest => rest
  | [r], rest => repoObjTo r ('\n' :: ']' :: rest)
  | r :: r2 :: rs, rest => repoObjTo r (',' :: '\n' :: repoItemsTo (r2 :: rs) rest)

/-- `json.MarshalIndent(repos, "", "  ")` for the concrete type `[]Repo`:
`null` for the nil slice, the indented array otherwise. -/
def marshalIndentRepos : List Repo → List Char
  | [] => ['n', 'u', 'l', 'l']
  | r :: rs => '[' :: '\n' :: repoItemsTo (r :: rs) []

/-- What `displayJSON` prints: the marshalled bytes and the newline that
`fmt.Println` appends. -/
def goDisplayJSONOutput (l : List Repo) : String :=
  String.mk (marshalIndentRepos l ++ ['\n'])

/-! ## JSON decoding (`json.Unmarshal` into `[]Repo`)

A general JSON text parser (the scanner's grammar: values, objects,
arrays, strings with escapes, strict number syntax) feeding a conversion
that mirrors `Unmarshal`'s behaviour for the target type `[]Repo`:
`null` leaves the nil slice, an array decodes element-wise, each element
object starts from the zero record and processes fields sequentially
(later duplicates overwrite), unknown fields are skipped, field names
match exactly or case-insensitively, string fields require JSON strings,
int fields require integer-syntax numbers that fit in 64 bits
(`strconv.ParseInt` on the literal), and `null` field values are no-ops. -/

/-- JSON whitespace (the four characters the scanner skips). -/
def isJsonWS (c : Char) : Bool :=
  c = ' ' ∨ c = '\t' ∨ c = '\n' ∨ c = '\r'

/-- Skip leading JSON whitespace. -/
def skipWS : List Char → List Char
  | [] => []
  | c :: cs => if isJsonWS c then skipWS cs else c :: cs

/-- Value of one hexadecimal digit. -/
def hexVal (c : Char) : Option Nat :=
  if '0' ≤ c ∧ c ≤ '9' then some (c.toNat - 48)
  else if 'a' ≤ c ∧ c ≤ 'f' then some (c.toNat - 87)
  else if 'A' ≤ c ∧ c ≤ 'F' then some (c.toNat - 55)
  else none

/-- The single-character escapes of JSON. -/
def escCharOf (e : Char) : Option Char :=
  if e = '"' then some '"'
  else if e = '\\' then some '\\'
  else if e = '/' then some '/'
  else if e = 'b' then some (Char.ofNat 8)
  else if e = 'f' then some (Char.ofNat 12)
  else if e = 'n' then some '\n'
  else if e = 'r' then some '\r'
  else if e = 't' then some '\t'
  else none

/-- Rebuild step shared by the string-body parser: prepend a decoded
character to a successful tail parse. -/
def consStr (c : Char) : Option (List Char × List Char) → Option (List Char × List Char)
  | some (body, rest) => some (c :: body, rest)
  | none => none

/-- Decode one `\uXXXX` escape given the hex values of its four digits,
the input after the escape, and the parser continuation: surrogate pairs
combine with a following low-surrogate escape, lone surrogates decode to
the replacement character U+FFFD (as Go's `unquoteChar`), and an invalid
hex digit fails the parse (as Go's scanner). -/
def uEscape (hv1 hv2 hv3 hv4 : Option Nat) (cs3 : List Char)
    (k : List Char → Option (List Char × List Char)) :
    Option (List Char × List Char) :=
  match hv1, hv2, hv3, hv4 with
  | some v1, some v2, some v3, some v4 =>
    let n := ((v1 * 16 + v2) * 16 + v3) * 16 + v4
    if 0xD800 ≤ n ∧ n < 0xDC00 then
      match cs3 with
      | s1 :: s2 :: g1 :: g2 :: g3 :: g4 :: cs6 =>
        if s1 = '\\' ∧ s2 = 'u' then
          match hexVal g1, hexVal g2, hexVal g3, hexVal g4 with
          | some w1, some w2, some w3, some w4 =>
            let m := ((w1 * 16 + w2) * 16 + w3) * 16 + w4
            if 0xDC00 ≤ m ∧ m < 0xE000 then
              consStr (Char.ofNat (0x10000 + (n - 0xD800) * 0x400 + (m - 0xDC00)))
                (k cs6)
            else consStr (Char.ofNat 0xFFFD) (k cs3)
          | _, _, _, _ => consStr (Char.ofNat 0xFFFD) (k cs3)
        else consStr (Char.ofNat 0xFFFD) (k cs3)
      | _ => consStr (Char.ofNat 0xFFFD) (k cs3)
    else if 0xDC00 ≤ n ∧ n < 0xE000 then consStr (Char.ofNat 0xFFFD) (k cs3)
    else consStr (Char.ofNat n) (k cs3)
  | _, _, _, _ => none

/-- Parse the body of a JSON string (after the opening quote) up to the
closing quote: raw characters, single-character escapes, and `\uXXXX`
escapes.  Fuelled: one unit per decoded character, so fuel equal to the
input length always suffices.  Returns the decoded characters and the
input after the closing quote. -/
def parseStrBody : Nat → List Char → Option (List Char × List Char)
  | 0, _ => none
  | _ + 1, [] => none
  | fuel + 1, c :: cs =>
    if c = '"' then some ([], cs)
    else if c = '\\' then
      match cs with
      | [] => none
      | e :: cs2 =>
        if e = 'u' then
          match cs2 with
          | h1 :: h2 :: h3 :: h4 :: cs3 =>
            uEscape (hexVal h1) (hexVal h2) (hexVal h3) (hexVal h4) cs3
              (parseStrBody fuel)
          | _ => none
        else
          match escCharOf e with
          | some ec => consStr ec (parseStrBody fuel cs2)
          | none => none
    else if c.toNat < 0x20 then none
    else consStr c (parseStrBody fuel cs)

/-- Longest leading run of decimal digits. -/
def parseDigits : List Char → List Char × List Char
  | [] => ([], [])
  | c :: cs =>
    if c.isDigit then
      let p := parseDigits cs
      (c :: p.1, p.2)
    else ([], c :: cs)

/-- Whether the input begins with a decimal digit. -/
def headIsDigit : List Char → Bool
  | [] => false
  | d :: _ => d.isDigit

/-- Integer part of a JSON number: `0` (not followed by a digit) or a
nonzero digit followed by digits. -/
def parseIntPart : List Char → Option (List Char × List Char)
  | [] => none
  | c :: cs =>
    if c = '0' then
      if headIsDigit cs then none else some (['0'], cs)
    else if c.isDigit then
      let p := parseDigits cs
      some (c :: p.1, p.2)
    else none

/-- Optional fraction part (`.` must be followed by at least one digit). -/
def parseFracPart : List Char → Option (List Char × List Char)
  | [] => some ([], [])
  | c :: cs =>
    if c = '.' then
      let p := parseDigits cs
      if p.1 = [] then none else some ('.' :: p.1, p.2)
    else some ([], c :: cs)

/-- Optional exponent part. -/
def parseExpPart : List Char → Option (List Char × List Char)
  | [] => some ([], [])
  | e :: cs =>
    if e = 'e' ∨ e = 'E' then
      match cs with
      | [] => none
      | s :: cs2 =>
        if s = '+' ∨ s = '-' then
          let p := parseDigits cs2
          if p.1 = [] then none else some (e :: s :: p.1, p.2)
        else
          let p := parseDigits cs
          if p.1 = [] then none else some (e :: p.1, p.2)
    else some ([], e :: cs)

/-- A complete JSON number literal (returned as its source characters,
which is what `Unmarshal` hands to `strconv` for an int field). -/
def parseNumLit (input : List Char) : Option (List Char × List Char) :=
  match input with
  | [] => none
  | c :: t =>
    if c = '-' then
      match parseIntPart t with
      | some (ip, r1) =>
        match parseFracPart r1 with
        | some (fp, r2) =>
          match parseExpPart r2 with
          | some (ep, r3) => some ('-' :: (ip ++ fp ++ ep), r3)
          | none => none
        | none => none
      | none => none
    else
      match parseIntPart (c :: t) with
      | some (ip, r1) =>
        match parseFracPart r1 with
        | some (fp, r2) =>
          match parseExpPart r2 with
          | some (ep, r3) => some (ip ++ fp ++ ep, r3)
          | none => none
        | none => none
      | none => none

/-- A parsed JSON value.  Numbers keep their source characters, as in
Go's decoder. -/
inductive JVal where
  | jnull
  | jbool (b : Bool)
  | jnum (lit : List Char)
  | jstr (s : List Char)
  | jarr (items : List JVal)
  | jobj (fields : List (List Char × JVal))
deriving Repr

mutual

/-- Parse one JSON value (fuelled: nesting consumes fuel). -/
def parseJVal : Nat → List Char → Option (JVal × List Char)
  | 0, _ => none
  | fuel + 1, input =>
    match skipWS input with
    | [] => none
    | c :: cs =>
      if c = 'n' then
        match cs with
        | 'u' :: 'l' :: 'l' :: rest => some (JVal.jnull, rest)
        | _ => none
      else if c = 't' then
        match cs with
        | 'r' :: 'u' :: 'e' :: rest => some (JVal.jbool true, rest)
        | _ => none
      else if c = 'f' then
        match cs with
        | 'a' :: 'l' :: 's' :: 'e' :: rest => some (JVal.jbool false, rest)
        | _ => none
      else if c = '"' then
        match parseStrBody (cs.length + 1) cs with
        | some (body, rest) => some (JVal.jstr body, rest)
        | none => none
      else if c = '[' then
        match skipWS cs with
        | ']' :: rest => some (JVal.jarr [], rest)
        | _ => parseJItems fuel cs []
      else if c = '{' then
        match skipWS cs with
        | '}' :: rest => some (JVal.jobj [], rest)
        | _ => parseJMembers fuel cs []
      else
        match parseNumLit (c :: cs) with
        | some (lit, rest) => some (JVal.jnum lit, rest)
        | none => none

/-- Parse the elements of a non-empty array, after its `[`. -/
def parseJItems : Nat → List Char → List JVal → Option (JVal × List Char)
  | 0, _, _ => none
  | fuel + 1, input, acc =>
    match parseJVal fuel input with
    | some (v, rest) =>
      match skipWS rest with
      | ',' :: rest2 => parseJItems fuel rest2 (acc ++ [v])
      | ']' :: rest2 => some (JVal.jarr (acc ++ [v]), rest2)
      | _ => none
    | none => none

/-- Parse the members of a non-empty object, after its `{`. -/
def parseJMembers : Nat → List Char → List (List Char × JVal) →
    Option (JVal × List Char)
  | 0, _, _ => none
  | fuel + 1, input, acc =>
    match skipWS input with
    | '"' :: cs =>
      match parseStrBody (cs.length + 1) cs with
      | some (key, rest) =>
        match skipWS rest with
        | ':' :: rest2 =>
          match parseJVal fuel rest2 with
          | some (v, rest3) =>
            match skipWS rest3 with
            | ',' :: rest4 => parseJMembers fuel rest4 (acc ++ [(key, v)])
            | '}' :: rest4 => some (JVal.jobj (acc ++ [(key, v)]), rest4)
            | _ => none
          | none => none
        | _ => none
      | none => none
    | _ => none

end

/-- ASCII lower-casing, for the decoder's case-insensitive field match
(the emitted keys are ASCII, so this coincides with Go's fold). -/
def asciiLower (c : Char) : Char :=
  if 'A' ≤ c ∧ c ≤ 'Z' then Char.ofNat (c.toNat + 32) else c

/-- Field-name matching: exact, else case-insensitive. -/
def keyMatches (key fieldName : List Char) : Bool :=
  key = fieldName ∨ key.map asciiLower = fieldName

/-- Apply one object member to a record, as `Unmarshal` does for the
fields of `Repo`: strings for `name`/`url`, 64-bit integer numbers for
`stars`/`forks`, `null` is a no-op, unknown keys are ignored, and a
type mismatch is an error. -/
def setField (r : Repo) (key : List Char) (v : JVal) : Option Repo :=
  if keyMatches key ['n', 'a', 'm', 'e'] then
    match v with
    | JVal.jstr s => some { r with name := String.mk s }
    | JVal.jnull => some r
    | _ => none
  else if keyMatches key ['u', 'r', 'l'] then
    match v with
    | JVal.jstr s => some { r with url := String.mk s }
    | JVal.jnull => some r
    | _ => none
  else if keyMatches key ['s', 't', 'a', 'r', 's'] then
    match v with
    | JVal.jnum lit =>
      match goAtoiChars lit with
      | (n, none) => some { r with stars := n }
      | _ => none
    | JVal.jnull => some r
    | _ => none
  else if keyMatches key ['f', 'o', 'r', 'k', 's'] then
    match v with
    | JVal.jnum lit =>
      match goAtoiChars lit with
      | (n, none) => some { r with forks := n }
      | _ => none
    | JVal.jnull => some r
    | _ => none
  else some r

/-- Process an object's members in order onto a record. -/
def applyFields : Repo → List (List Char × JVal) → Option Repo
  | r, [] => some r
  | r, (k, v) :: fs =>
    match setField r k v with
    | some r2 => applyFields r2 fs
    | none => none

/-- Decode one array element into a `Repo`: an object filled from the
zero record, or `null` leaving the zero record. -/
def jvalToRepo : JVal → Option Repo
  | JVal.jobj fields => applyFields ⟨"", "", 0, 0⟩ fields
  | JVal.jnull => some ⟨"", "", 0, 0⟩
  | _ => none

/-- Decode a list of elements. -/
def jvalElemsToRepos : List JVal → Option (List Repo)
  | [] => some []
  | v :: vs =>
    match jvalToRepo v, jvalElemsToRepos vs with
    | some r, some rs => some (r :: rs)
    | _, _ => none

/-- Decode a top-level value into `[]Repo`: `null` leaves the nil slice,
an array decodes element-wise, anything else is a type error. -/
def jvalToRepos : JVal → Option (List Repo)
  | JVal.jnull => some []
  | JVal.jarr items => jvalElemsToRepos items
  | _ => none

/-- `json.Unmarshal(data, &repos)`: parse one value, allow only trailing
whitespace, convert.  The fuel is ample for any input of this length. -/
def goUnmarshalRepos (s : String) : Option (List Repo) :=
  match parseJVal (2 * s.data.length + 2) s.data with
  | some (v, rest) => if skipWS rest = [] then jvalToRepos v else none
  | none => none

/-- The `JVal` the emitted rendering of one record parses to. -/
def repoJVal (r : Repo) : JVal :=
  JVal.jobj [(['n', 'a', 'm', 'e'], JVal.jstr r.name.data),
    (['u', 'r', 'l'], JVal.jstr r.url.data),
    (['s', 't', 'a', 'r', 's'], JVal.jnum (intDecChars r.stars)),
    (['f', 'o', 'r', 'k', 's'], JVal.jnum (intDecChars r.forks))]

/-- The record's numeric fields fit Go's `int`: true of every record the
program builds, since both come from `strconv.Atoi`. -/
def RepoWF (r : Repo) : Prop :=
  int64Min ≤ r.stars ∧ r.stars ≤ int64Max ∧ int64Min ≤ r.forks ∧ r.forks ≤ int64Max

instance (r : Repo) : Decidable (RepoWF r) := by
  unfold RepoWF
  infer_instance

/-! ## Lemmas about the selection loop -/

/-- The loop only extends the accumulator, and the extension is a sublist
of the scanned slice. -/
theorem selectLoop_eq_append (rows minStar : Int) :
    ∀ (l acc : List Repo),
      ∃ t, selectLoop rows minStar acc l = acc ++ t ∧ t.Sublist l := by
  intro l
  induction l with
  | nil => intro acc; exact ⟨[], by simp [selectLoop], List.Sublist.refl _⟩
  | cons a rest ih =>
    intro acc
    simp only [selectLoop]
    by_cases hm : minStar ≤ a.stars
    · rw [if_pos hm]
      split

      next hb =>
        exact ⟨[a], rfl, by
          simp [List.Sublist.cons₂ a (List.nil_sublist rest)]⟩
      next hb =>
        obtain ⟨t, ht, hs⟩ := ih (acc ++ [a])
        refine ⟨a :: t, ?_, List.Sublist.cons₂ a hs⟩
        rw [ht, List.append_assoc, List.singleton_append]
    · rw [if_neg hm]
      split
      next hb => exact ⟨[], by simp, List.nil_sublist _⟩
      next hb =>
        obtain ⟨t, ht, hs⟩ := ih acc
        exact ⟨t, ht, hs.cons a⟩

/-- While the accumulator is strictly below `rows`, the loop's result never
exceeds `rows` records: the break fires the moment the count reaches it. -/
theorem selectLoop_length_le (rows minStar : Int) :
    ∀ (l acc : List Repo), (acc.length : Int) < rows →
      ((selectLoop rows minStar acc l).length : Int) ≤ rows := by
  intro l
  induction l with
  | nil => intro acc h; simpa [selectLoop] using le_of_lt h
  | cons a rest ih =>
    intro acc h
    simp only [selectLoop]
    by_cases hm : minStar ≤ a.stars
    · rw [if_pos hm]
      split
      next hb => exact le_of_eq hb
      next hb =>
        apply ih (acc ++ [a])
        have h2 : ((acc.length : Nat) : Int) + 1 ≤ rows := h
        have h3 : (((acc ++ [a]).length : Nat) : Int) = ((acc.length : Nat) : Int) + 1 := by
          simp only [List.length_append, List.length_singleton]
          push_cast
          ring
        rw [h3]
        rcases lt_or_eq_of_le h2 with h4 | h4
        · exact h4
        · exact absurd (h3.trans h4) hb
    · rw [if_neg hm]
      split
      next hb => exact le_of_eq hb
      next hb => exact ih acc h

/-- Once the accumulator's length has passed `rows`, the break condition
can never fire again, so the loop degenerates to a plain filter. -/
theorem selectLoop_past_rows (rows minStar : Int) :
    ∀ (l acc : List Repo), rows < (acc.length : Int) →
      selectLoop rows minStar acc l =
        acc ++ l.filter (fun x => decide (minStar ≤ x.stars)) := by
  intro l
  induction l with
  | nil => intro acc _; simp [selectLoop]
  | cons a rest ih =>
    intro acc h
    have hlen : (((acc ++ [a]).length : Nat) : Int) = ((acc.length : Nat) : Int) + 1 := by
      simp only [List.length_append, List.length_singleton]
      push_cast
      ring
    simp only [selectLoop]
    by_cases hm : minStar ≤ a.stars
    · rw [if_pos hm]
      have hb : ¬ ((((acc ++ [a]).length : Nat) : Int) = rows) := by
        rw [hlen]; omega
      rw [if_neg hb]
      have hlt : rows < (((acc ++ [a]).length : Nat) : Int) := by
        rw [hlen]; omega
      rw [ih (acc ++ [a]) hlt, List.filter_cons, List.append_assoc,
        List.singleton_append]
      simp [hm]
    · rw [if_neg hm]
      have hb : ¬ (((acc.length : Nat) : Int) = rows) := by omega
      rw [if_neg hb, ih acc h, List.filter_cons]
      simp [hm]

/-- Every record the loop returns was in the accumulator already or is a
scanned record meeting the star threshold. -/
theorem selectLoop_mem (rows minStar : Int) :
    ∀ (l acc : List Repo) (x : Repo), x ∈ selectLoop rows minStar acc l →
      x ∈ acc ∨ (x ∈ l ∧ minStar ≤ x.stars) := by
  intro l
  induction l with
  | nil => intro acc x hx; exact Or.inl (by simpa [selectLoop] using hx)
  | cons a rest ih =>
    intro acc x hx
    simp only [selectLoop] at hx
    by_cases hm : minStar ≤ a.stars
    · rw [if_pos hm] at hx
      have key : x ∈ acc ++ [a] → x ∈ acc ∨ (x ∈ a :: rest ∧ minStar ≤ x.stars) := by
        intro h
        rcases List.mem_append.mp h with h2 | h2
        · exact Or.inl h2
        · simp only [List.mem_singleton] at h2
          exact Or.inr ⟨by simp [h2], h2 ▸ hm⟩
      split at hx
      next hb => exact key hx
      next hb =>
        rcases ih (acc ++ [a]) x hx with h | h
        · exact key h
        · exact Or.inr ⟨List.mem_cons_of_mem a h.1, h.2⟩
    · rw [if_neg hm] at hx
      split at hx
      next hb => exact Or.inl hx
      next hb =>
        rcases ih acc x hx with h | h
        · exact Or.inl h
        · exact Or.inr ⟨List.mem_cons_of_mem a h.1, h.2⟩

/-! ## Lemmas about the pagination walk -/

/-- Dropping the first page of a chain leaves a chain. -/
theorem ChainWorld_tail (world : World) (u : String) (us : List String)
    (p : List RowHTML) (ps : List (List RowHTML))
    (h : ChainWorld world (u :: us) (p :: ps)) : ChainWorld world us ps := by
  obtain ⟨hlen, hidx⟩ := h
  refine ⟨by simpa using hlen, ?_⟩
  intro i hi
  have := hidx (i + 1) (by simpa using Nat.succ_lt_succ hi)
  simpa [Nat.succ_lt_succ_iff] using this

/-- Walking a finite chain of successful pages requests exactly the
chain's URLs in order and accumulates the extraction of every page. -/
theorem fetchLoop_chain (world : World) :
    ∀ (urls : List String) (pages : List (List RowHTML)) (fuel : Nat)
      (acc : List Repo),
      ChainWorld world urls pages → urls ≠ [] → urls.length ≤ fuel →
      fetchLoop world fuel (urls.getD 0 "") acc =
        (urls, FetchOutcome.done
          (some (acc ++ (pages.map (fun rs => rs.map extractRepo)).flatten)) none) := by
  intro urls
  induction urls with
  | nil => intro pages fuel acc _ hne _; exact absurd rfl hne
  | cons u us ih =>
    intro pages fuel acc hchain _ hfuel
    obtain ⟨hlen, hidx⟩ := hchain
    cases pages with
    | nil => simp at hlen
    | cons p ps =>
      cases fuel with
      | zero => simp at hfuel
      | succ f =>
        have h0 := hidx 0 (by simp)
        rw [List.getD_cons_zero, List.getD_cons_zero] at h0
        rw [List.getD_cons_zero]
        cases us with
        | nil =>
          have hnext : ¬ (0 + 1 < ([u] : List String).length) := by simp
          rw [if_neg hnext] at h0
          rw [fetchLoop, h0]
          have : ps = [] := by simpa using hlen
          subst this
          simp
        | cons v vs =>
          have hnext : 0 + 1 < (u :: v :: vs).length := by simp
          rw [if_pos hnext] at h0
          rw [List.getD_cons_succ, List.getD_cons_zero] at h0
          rw [fetchLoop, h0]
          have htail := ChainWorld_tail world u (v :: vs) p ps ⟨hlen, hidx⟩
          have hrec := ih ps f (acc ++ p.map extractRepo) htail (by simp)
            (by simpa using Nat.le_of_succ_le_succ hfuel)
          rw [List.getD_cons_zero] at hrec
          simp only [Option.getD_some, hrec, List.map_cons, List.flatten_cons,
            List.append_assoc]

/-- Exhaustive description of a terminated walk: an error run names a
failing requested URL and carries no records; a successful run's requested
URLs all served pages. -/
theorem fetchLoop_cases (world : World) :
    ∀ (fuel : Nat) (url : String) (acc : List Repo),
      (fetchLoop world fuel url acc).2 = FetchOutcome.outOfFuel ∨
      (∃ msg, (fetchLoop world fuel url acc).2 = FetchOutcome.done none (some msg) ∧
        ∃ u ∈ (fetchLoop world fuel url acc).1, pageFails (world u) = true) ∨
      (∃ l, (fetchLoop world fuel url acc).2 = FetchOutcome.done (some l) none ∧
        ∀ u ∈ (fetchLoop world fuel url acc).1, pageFails (world u) = false) := by
  intro fuel
  induction fuel with
  | zero => intro url acc; exact Or.inl rfl
  | succ f ih =>
    intro url acc
    cases hw : world url with
    | fetchFail msg =>
      refine Or.inr (Or.inl ⟨"failed to fetch page " ++ url ++ ": " ++ msg, ?_, url, ?_, ?_⟩)
      · simp [fetchLoop, hw]
      · simp [fetchLoop, hw]
      · simp [pageFails, hw]
    | parseFail msg =>
      refine Or.inr (Or.inl ⟨"failed to parse page " ++ url ++ ": " ++ msg, ?_, url, ?_, ?_⟩)
      · simp [fetchLoop, hw]
      · simp [fetchLoop, hw]
      · simp [pageFails, hw]
    | page rows next =>
      cases next with
      | none =>
        refine Or.inr (Or.inr ⟨acc ++ rows.map extractRepo, ?_, ?_⟩)
        · simp [fetchLoop, hw]
        · intro u hu
          simp only [fetchLoop, hw, List.mem_singleton] at hu
          rw [hu, hw]
          rfl
      | some href =>
        rcases ih (href.getD "") (acc ++ rows.map extractRepo) with h | h | h
        · refine Or.inl ?_
          simp [fetchLoop, hw, h]
        · obtain ⟨msg, hout, u, hu, hfail⟩ := h
          refine Or.inr (Or.inl ⟨msg, ?_, ⟨u, ?_, hfail⟩⟩)
          · simp [fetchLoop, hw, hout]
          · simp only [fetchLoop, hw, List.mem_cons]
            exact Or.inr hu
        · obtain ⟨l, hout, hall⟩ := h
          refine Or.inr (Or.inr ⟨l, ?_, ?_⟩)
          · simp [fetchLoop, hw, hout]
          · intro u hu
            simp only [fetchLoop, hw, List.mem_cons] at hu
            rcases hu with hu | hu
            · rw [hu, hw]; rfl
            · exact hall u hu

/-! ## Lemmas about the numeric-field parser -/

/-- The range check never reports a syntax error. -/
theorem goClamp_never_syntaxErr (v : Int) : (goClamp v).2 ≠ some NumErr.errSyntax := by
  unfold goClamp
  split_ifs <;> simp

/-- A range failure of the range check carries a clamped bound. -/
theorem goClamp_range_val (v : Int)
    (h : (goClamp v).2 = some NumErr.errRange) :
    (goClamp v).1 = int64Max ∨ (goClamp v).1 = int64Min := by
  unfold goClamp at h ⊢
  split_ifs at h ⊢
  all_goals first
    | exact Or.inl rfl
    | exact Or.inr rfl

/-- The range check preserves non-negativity. -/
theorem goClamp_nonneg (v : Int) (hv : 0 ≤ v) : 0 ≤ (goClamp v).1 := by
  unfold goClamp
  split_ifs with h1 h2
  · show (0 : Int) ≤ int64Max
    decide
  · exfalso
    simp only [int64Min] at h2
    omega
  · exact hv

/-- A syntax failure of the digit-run handler always carries value 0. -/
theorem goAtoiCore_syntax_val (neg : Bool) (ds : List Char)
    (h : (goAtoiCore neg ds).2 = some NumErr.errSyntax) :
    (goAtoiCore neg ds).1 = 0 := by
  unfold goAtoiCore at h ⊢
  split_ifs at h ⊢
  all_goals first
    | rfl
    | exact absurd h (goClamp_never_syntaxErr _)

/-- A range failure of the digit-run handler carries a clamped bound. -/
theorem goAtoiCore_range_val (neg : Bool) (ds : List Char)
    (h : (goAtoiCore neg ds).2 = some NumErr.errRange) :
    (goAtoiCore neg ds).1 = int64Max ∨ (goAtoiCore neg ds).1 = int64Min := by
  unfold goAtoiCore at h ⊢
  split_ifs at h ⊢
  all_goals first
    | exact goClamp_range_val _ h
    | simp at h

/-- A syntax failure of the sign handler always carries value 0. -/
theorem goAtoiChars_syntax_val (cs : List Char)
    (h : (goAtoiChars cs).2 = some NumErr.errSyntax) : (goAtoiChars cs).1 = 0 := by
  cases cs with
  | nil => rfl
  | cons c cs =>
    simp only [goAtoiChars] at h ⊢
    split_ifs at h ⊢
    all_goals first
      | exact goAtoiCore_syntax_val true cs h
      | exact goAtoiCore_syntax_val false cs h
      | exact goAtoiCore_syntax_val false (c :: cs) h

/-- A range failure of the sign handler carries a clamped bound. -/
theorem goAtoiChars_range_val (cs : List Char)
    (h : (goAtoiChars cs).2 = some NumErr.errRange) :
    (goAtoiChars cs).1 = int64Max ∨ (goAtoiChars cs).1 = int64Min := by
  cases cs with
  | nil => exact absurd h (by decide)
  | cons c cs =>
    simp only [goAtoiChars] at h ⊢
    split_ifs at h ⊢
    all_goals first
      | exact goAtoiCore_range_val true cs h
      | exact goAtoiCore_range_val false cs h
      | exact goAtoiCore_range_val false (c :: cs) h

/-- A syntax failure of `Atoi` always carries value 0. -/
theorem goAtoi_syntax_val (s : String)
    (h : (goAtoi s).2 = some NumErr.errSyntax) : (goAtoi s).1 = 0 :=
  goAtoiChars_syntax_val s.data h

/-- A range failure of `Atoi` carries a clamped 64-bit bound. -/
theorem goAtoi_range_val (s : String)
    (h : (goAtoi s).2 = some NumErr.errRange) :
    (goAtoi s).1 = int64Max ∨ (goAtoi s).1 = int64Min :=
  goAtoiChars_range_val s.data h

/-- Without a minus sign the digit-run handler never produces a negative
value: success yields the digit value, syntax failure yields 0, and an
overflow clamps to the positive bound. -/
theorem goAtoiCore_false_nonneg (ds : List Char) : 0 ≤ (goAtoiCore false ds).1 := by
  unfold goAtoiCore
  split_ifs
  all_goals first
    | exact le_refl (0 : Int)
    | exact goClamp_nonneg _ (Int.ofNat_nonneg _)

/-- Trimming only removes characters. -/
theorem goTrimSpace_data_subset (s : String) : (goTrimSpace s).data ⊆ s.data := by
  intro c hc
  simp only [goTrimSpace] at hc
  rw [List.mem_reverse] at hc
  have h1 := (List.dropWhile_sublist (l := (s.data.dropWhile goIsSpace).reverse)
    (p := goIsSpace)).subset hc
  rw [List.mem_reverse] at h1
  exact (List.dropWhile_sublist (l := s.data) (p := goIsSpace)).subset h1

/-- Comma removal only removes characters. -/
theorem removeCommas_data_subset (s : String) : (removeCommas s).data ⊆ s.data := by
  intro c hc
  simp only [removeCommas] at hc
  exact (List.filter_sublist (l := s.data)).subset hc

/-- A scraped numeric text containing no minus sign never parses to a
negative field value. -/
theorem parseNumField_nonneg (s : String) (h : '-' ∉ s.data) :
    0 ≤ parseNumField s := by
  unfold parseNumField
  have hsub : (removeCommas (goTrimSpace s)).data ⊆ s.data := fun c hc =>
    goTrimSpace_data_subset s (removeCommas_data_subset (goTrimSpace s) hc)
  unfold goAtoi
  cases hd : (removeCommas (goTrimSpace s)).data with
  | nil => exact le_refl 0
  | cons c cs =>
    have hcmem : c ∈ s.data := hsub (hd ▸ List.mem_cons_self c cs)
    have h1 : ¬ (c = '-') := fun he => h (he ▸ hcmem)
    simp only [goAtoiChars]
    rw [if_neg h1]
    by_cases h2 : c = '+'
    · rw [if_pos h2]
      exact goAtoiCore_false_nonneg cs
    · rw [if_neg h2]
      exact goAtoiCore_false_nonneg (c :: cs)

/-! ## Claims C5, C6: the pagination walk -/

/-- **C5, confirmed.**  On a finite chain of listing pages in which only
the last page lacks a `Next` link, `fetchDependents` requests each page
exactly once, in chain order, terminates, and returns the concatenation of
the records extracted from each page. -/
theorem C5_pagination_requests_each_page_once (world : World) (urls : List String)
    (pages : List (List RowHTML)) (url : String) (isRepositories : Bool) (fuel : Nat)
    (hchain : ChainWorld world urls pages) (hne : urls ≠ [])
    (hhead : urls.getD 0 "" = initialURL url isRepositories)
    (hfuel : urls.length ≤ fuel) :
    fetchDependents world url isRepositories fuel =
      (urls, FetchOutcome.done
        (some ((pages.map (fun rs => rs.map extractRepo)).flatten)) none) := by
  unfold fetchDependents
  rw [← hhead]
  have h := fetchLoop_chain world urls pages fuel [] hchain hne hfuel
  rw [h, List.nil_append]

/-- A mock two-page listing: the initial listing URL answers with one row
and a `Next` link to `p2`; `p2` answers with one row and no `Next` link. -/
def twoPageWorld : World := fun u =>
  if u = initialURL "u" true then
    PageResult.page [⟨"alpha", some "/alpha/a", "50", "7"⟩] (some (some "p2"))
  else if u = "p2" then
    PageResult.page [⟨"beta", some "/beta/b", "1,200", "9"⟩] none
  else PageResult.fetchFail "unreachable"

/-- **C5, witness**: the two-page scenario issues exactly two requests and
returns both pages' records. -/
theorem C5_pagination_witness :
    fetchDependents twoPageWorld "u" true 2 =
      ([initialURL "u" true, "p2"], FetchOutcome.done
        (some ((([[⟨"alpha", some "/alpha/a", "50", "7"⟩],
            [⟨"beta", some "/beta/b", "1,200", "9"⟩]] : List (List RowHTML)).map
          (fun rs => rs.map extractRepo)).flatten)) none) :=
  C5_pagination_requests_each_page_once twoPageWorld [initialURL "u" true, "p2"]
    [[⟨"alpha", some "/alpha/a", "50", "7"⟩], [⟨"beta", some "/beta/b", "1,200", "9"⟩]]
    "u" true 2 (by decide) (by decide) (by decide) (by decide)

/-- **C6, confirmed.**  For every terminated run: an error return carries
no record collection at all, records come back exactly when every
requested page fetched and parsed successfully, and an error comes back
exactly when some requested page failed. -/
theorem C6_page_failure_aborts (world : World) (url : String)
    (isRepositories : Bool) (fuel : Nat) (reqs : List String)
    (repos : Option (List Repo)) (err : Option String)
    (h : fetchDependents world url isRepositories fuel =
      (reqs, FetchOutcome.done repos err)) :
    (err ≠ none → repos = none) ∧
      ((∃ l, repos = some l) ↔ ∀ u ∈ reqs, pageFails (world u) = false) ∧
      ((∃ msg, err = some msg) ↔ ∃ u ∈ reqs, pageFails (world u) = true) := by
  have hcases := fetchLoop_cases world fuel (initialURL url isRepositories) []
  unfold fetchDependents at h
  rw [h] at hcases
  simp only at hcases
  rcases hcases with hc | hc | hc
  · exact absurd hc (by simp)
  · obtain ⟨msg, hout, u, hu, hfail⟩ := hc
    have hout2 : repos = none ∧ err = some msg := by
      have := FetchOutcome.done.inj hout
      exact ⟨this.1, this.2⟩
    obtain ⟨hrep, herr⟩ := hout2
    subst hrep
    subst herr
    refine ⟨fun _ => rfl, ?_, ?_⟩
    · constructor
      · rintro ⟨l, hl⟩
        exact absurd hl (by simp)
      · intro hall
        exact absurd (hall u hu) (by simp [hfail])
    · exact ⟨fun _ => ⟨u, hu, hfail⟩, fun _ => ⟨msg, rfl⟩⟩
  · obtain ⟨l, hout, hall⟩ := hc
    have hout2 : repos = some l ∧ err = none := by
      have := FetchOutcome.done.inj hout
      exact ⟨this.1, this.2⟩
    obtain ⟨hrep, herr⟩ := hout2
    subst hrep
    subst herr
    refine ⟨fun hcon => absurd rfl hcon, ?_, ?_⟩
    · exact ⟨fun _ => hall, fun _ => ⟨l, rfl⟩⟩
    · constructor
      · rintro ⟨msg, hmsg⟩
        exact absurd hmsg (by simp)
      · rintro ⟨u, hu, hfail⟩
        exact absurd (hall u hu) (by simp [hfail])

/-- A mock listing whose second page fails to fetch. -/
def failPageWorld : World := fun u =>
  if u = initialURL "w" true then
    PageResult.page [⟨"g", some "/g", "10", "1"⟩] (some (some "wp2"))
  else if u = "wp2" then PageResult.fetchFail "connection refused"
  else PageResult.parseFail "unreachable"

/-- **C6, witness**: a failing second page yields an error, no records,
and the error is attributed to a requested page that failed. -/
theorem C6_page_failure_witness :
    ((some "failed to fetch page wp2: connection refused" : Option String) ≠ none →
        (none : Option (List Repo)) = none) ∧
      ((∃ l, (none : Option (List Repo)) = some l) ↔
        ∀ u ∈ [initialURL "w" true, "wp2"], pageFails (failPageWorld u) = false) ∧
      ((∃ msg, (some "failed to fetch page wp2: connection refused" :
          Option String) = some msg) ↔
        ∃ u ∈ [initialURL "w" true, "wp2"], pageFails (failPageWorld u) = true) :=
  C6_page_failure_aborts failPageWorld "w" true 3 [initialURL "w" true, "wp2"]
    none (some "failed to fetch page wp2: connection refused") (by decide)

/-! ## Claims C1-C4, C10: the ranking pipeline -/

/-- **C1, counterexample.**  The claim "sortRepos returns at most rowLimit
records" fails at `rowLimit = 0`: the break `len(result) == rows` is
tested only after the first append and can then never fire, so one record
comes back where the claim allows none. -/
theorem C1_rank_limit_counterexample :
    sortReposRel [⟨"a", "u", 5, 0⟩] 0 0 [⟨"a", "u", 5, 0⟩] [⟨"a", "u", 5, 0⟩] ∧
      ¬ ((([(⟨"a", "u", 5, 0⟩ : Repo)] : List Repo).length : Int) ≤ 0) := by
  decide

/-- **C1, amended.**  For every positive `rowLimit` the ranking pipeline
returns at most `rowLimit` records (for `rowLimit ≤ 0` the break cannot
fire once a record has been kept), and in every case each returned record
has `stars ≥ minStars`. -/
theorem C1_rank_limit_amended (repos : List Repo) (rows minStar : Int)
    (sortedRepos result : List Repo)
    (h : sortReposRel repos rows minStar sortedRepos result) :
    (1 ≤ rows → ((result.length : Nat) : Int) ≤ rows) ∧
      ∀ x ∈ result, minStar ≤ x.stars := by
  obtain ⟨_, hres⟩ := h
  constructor
  · intro hrows
    rw [hres]
    apply selectLoop_length_le
    show ((0 : Nat) : Int) < rows
    omega
  · intro x hx
    rw [hres] at hx
    rcases selectLoop_mem rows minStar sortedRepos [] x hx with h2 | h2
    · simp at h2
    · exact h2.2

/-- **C1, witness.** -/
theorem C1_rank_limit_witness :
    ((1 : Int) ≤ 2 → ((([(⟨"a", "u", 7, 0⟩ : Repo)] : List Repo).length : Nat) : Int) ≤ 2) ∧
      ∀ x ∈ [(⟨"a", "u", 7, 0⟩ : Repo)], (3 : Int) ≤ x.stars :=
  C1_rank_limit_amended [⟨"a", "u", 7, 0⟩] 2 3 [⟨"a", "u", 7, 0⟩] [⟨"a", "u", 7, 0⟩]
    (by decide)

/-- **C2, confirmed.**  Every admissible result of the ranking pipeline is
ordered by stars descending: any kept record has at least as many stars as
every record after it. -/
theorem C2_rank_sorted_desc (repos : List Repo) (rows minStar : Int)
    (sortedRepos result : List Repo)
    (h : sortReposRel repos rows minStar sortedRepos result) :
    result.Pairwise (fun a b => b.stars ≤ a.stars) := by
  obtain ⟨⟨_, hsort⟩, hres⟩ := h
  unfold GoSortedByStars at hsort
  obtain ⟨t, ht, hsub⟩ := selectLoop_eq_append rows minStar sortedRepos []
  rw [hres, ht, List.nil_append]
  exact List.Pairwise.sublist hsub hsort

/-- **C2, witness.** -/
theorem C2_rank_sorted_desc_witness :
    ([⟨"b", "", 9, 0⟩, ⟨"a", "", 4, 0⟩] : List Repo).Pairwise
      (fun a b => b.stars ≤ a.stars) :=
  C2_rank_sorted_desc [⟨"a", "", 4, 0⟩, ⟨"b", "", 9, 0⟩] 5 0
    [⟨"b", "", 9, 0⟩, ⟨"a", "", 4, 0⟩] [⟨"b", "", 9, 0⟩, ⟨"a", "", 4, 0⟩] (by decide)

/-- **C3, counterexample.**  With `rowLimit = 0` and a record meeting the
threshold the result is not empty: the break is only tested after the
conditional append, so after the first kept record the count can never
equal 0 again. -/
theorem C3_rowlimit_zero_counterexample :
    sortReposRel [⟨"b", "v", 6, 1⟩] 0 0 [⟨"b", "v", 6, 1⟩] [⟨"b", "v", 6, 1⟩] ∧
      ([(⟨"b", "v", 6, 1⟩ : Repo)] : List Repo) ≠ [] := by
  decide

/-- **C3, amended.**  With `rowLimit ≤ 0` the ranking pipeline returns
every record meeting the threshold, in sorted order — the filter of the
sorted slice.  It is therefore empty exactly when no record meets
`minStars` (in particular on empty input), not unconditionally. -/
theorem C3_rowlimit_zero_amended (repos : List Repo) (rows minStar : Int)
    (sortedRepos result : List Repo)
    (h : sortReposRel repos rows minStar sortedRepos result) (hrows : rows ≤ 0) :
    result = sortedRepos.filter (fun x => decide (minStar ≤ x.stars)) := by
  obtain ⟨⟨_, hsort⟩, hres⟩ := h
  rcases lt_or_eq_of_le hrows with hlt | heq
  · rw [hres]
    have := selectLoop_past_rows rows minStar sortedRepos []
      (by show rows < ((0 : Nat) : Int); omega)
    rw [this, List.nil_append]
  · subst heq
    cases sortedRepos with
    | nil => rw [hres]; rfl
    | cons a rest =>
      unfold GoSortedByStars at hsort
      by_cases hm : minStar ≤ a.stars
      · rw [hres]
        simp only [selectLoop, if_pos hm, List.nil_append]
        have hne : ¬ ((([a] : List Repo).length : Int) = 0) := by simp
        rw [if_neg hne]
        rw [selectLoop_past_rows 0 minStar rest [a] (by simp), List.filter_cons]
        simp [hm]
      · rw [hres]
        simp only [selectLoop, if_neg hm, List.nil_append]
        have hz : ((([] : List Repo).length : Int) = 0) := by simp
        rw [if_pos hz]
        have hall : ∀ x ∈ a :: rest, ¬ (decide (minStar ≤ x.stars) = true) := by
          intro x hx
          simp only [decide_eq_true_eq]
          rcases List.mem_cons.mp hx with hxa | hxr
          · subst hxa; exact hm
          · have := (List.pairwise_cons.mp hsort).1 x hxr
            intro hcon
            exact hm (le_trans hcon this)
        rw [List.filter_eq_nil_iff.mpr hall]

/-- **C3, witness.** -/
theorem C3_rowlimit_zero_witness :
    ([(⟨"c", "", 5, 0⟩ : Repo)] : List Repo) =
      List.filter (fun x => decide ((3 : Int) ≤ x.stars))
        [(⟨"c", "", 5, 0⟩ : Repo), ⟨"d", "", 1, 0⟩] :=
  C3_rowlimit_zero_amended [⟨"c", "", 5, 0⟩, ⟨"d", "", 1, 0⟩] 0 3
    [⟨"c", "", 5, 0⟩, ⟨"d", "", 1, 0⟩] [⟨"c", "", 5, 0⟩] (by decide) (by decide)

/-- **C4, counterexample.**  The sort is `sort.Slice`, which is documented
as not stable: the admissible run below sorts two equal-star records into
the opposite of their scrape order, so tie order is not preserved. -/
theorem C4_stability_counterexample :
    sortReposRel [⟨"first", "", 5, 0⟩, ⟨"second", "", 5, 0⟩] 2 0
        [⟨"second", "", 5, 0⟩, ⟨"first", "", 5, 0⟩]
        [⟨"second", "", 5, 0⟩, ⟨"first", "", 5, 0⟩] ∧
      (⟨"first", "", 5, 0⟩ : Repo).stars = (⟨"second", "", 5, 0⟩ : Repo).stars ∧
      (⟨"first", "", 5, 0⟩ : Repo) ≠ ⟨"second", "", 5, 0⟩ := by
  decide

/-- **C4, amended.**  The relative order of equal-star records is
unspecified: what the pipeline guarantees is that the sorted slice is a
permutation of the input ordered by stars descending, and the result is a
sublist of it. -/
theorem C4_stability_amended (repos : List Repo) (rows minStar : Int)
    (sortedRepos result : List Repo)
    (h : sortReposRel repos rows minStar sortedRepos result) :
    repos.Perm sortedRepos ∧ GoSortedByStars sortedRepos ∧
      result.Sublist sortedRepos := by
  obtain ⟨⟨hperm, hsort⟩, hres⟩ := h
  refine ⟨hperm, hsort, ?_⟩
  obtain ⟨t, ht, hsub⟩ := selectLoop_eq_append rows minStar sortedRepos []
  rw [hres, ht, List.nil_append]
  exact hsub

/-- **C4, witness.** -/
theorem C4_stability_witness :
    ([⟨"e", "", 3, 0⟩, ⟨"f", "", 8, 0⟩] : List Repo).Perm
        [⟨"f", "", 8, 0⟩, ⟨"e", "", 3, 0⟩] ∧
      GoSortedByStars [⟨"f", "", 8, 0⟩, ⟨"e", "", 3, 0⟩] ∧
      ([⟨"f", "", 8, 0⟩] : List Repo).Sublist [⟨"f", "", 8, 0⟩, ⟨"e", "", 3, 0⟩] :=
  C4_stability_amended [⟨"e", "", 3, 0⟩, ⟨"f", "", 8, 0⟩] 1 0
    [⟨"f", "", 8, 0⟩, ⟨"e", "", 3, 0⟩] [⟨"f", "", 8, 0⟩] (by decide)

/-- **C10, confirmed.**  `sortRepos` mutates its argument: the caller's
slice after the call is a permutation of what was passed in, ordered by
stars descending — and for the concrete two-record input below no
admissible post-state equals the pre-state, so the operation is not
observationally pure in its argument. -/
theorem C10_in_place_sort (repos : List Repo) (rows minStar : Int)
    (sortedRepos result : List Repo)
    (h : sortReposRel repos rows minStar sortedRepos result) :
    (sortedRepos.Perm repos ∧ GoSortedByStars sortedRepos) ∧
      ∀ s : List Repo,
        SortSliceSpec [⟨"x", "", 1, 0⟩, ⟨"y", "", 2, 0⟩] s →
          s ≠ [⟨"x", "", 1, 0⟩, ⟨"y", "", 2, 0⟩] := by
  obtain ⟨⟨hperm, hsort⟩, _⟩ := h
  refine ⟨⟨hperm.symm, hsort⟩, ?_⟩
  intro s hs heq
  subst heq
  exact absurd hs.2 (by decide)

/-- **C10, witness.** -/
theorem C10_in_place_sort_witness :
    (([⟨"p", "", 8, 0⟩, ⟨"q", "", 1, 0⟩] : List Repo).Perm
        [⟨"q", "", 1, 0⟩, ⟨"p", "", 8, 0⟩] ∧
      GoSortedByStars [⟨"p", "", 8, 0⟩, ⟨"q", "", 1, 0⟩]) ∧
      ∀ s : List Repo,
        SortSliceSpec [⟨"x", "", 1, 0⟩, ⟨"y", "", 2, 0⟩] s →
          s ≠ [⟨"x", "", 1, 0⟩, ⟨"y", "", 2, 0⟩] :=
  C10_in_place_sort [⟨"q", "", 1, 0⟩, ⟨"p", "", 8, 0⟩] 10 5
    [⟨"p", "", 8, 0⟩, ⟨"q", "", 1, 0⟩] [⟨"p", "", 8, 0⟩] (by decide)

/-! ## Claims C7, C8: numeric-field parsing and non-negativity -/

/-- **C7, counterexample.**  "Defaults to 0 on parse failure" is false for
out-of-range numeric text: `Atoi` reports a range error whose ignored
value is the clamped 64-bit maximum, not 0. -/
theorem C7_parse_default_counterexample :
    (goAtoi (removeCommas (goTrimSpace "99999999999999999999"))).2 =
        some NumErr.errRange ∧
      parseNumField "99999999999999999999" = 9223372036854775807 ∧
      (9223372036854775807 : Int) ≠ 0 := by
  decide

/-- **C7, amended.**  The numeric-field parser trims whitespace, removes
commas and parses the rest as an integer; a syntax failure (empty or
non-numeric text) yields 0, so `"1,234"` parses to 1234 and `""`/`"N/A"`
parse to 0 — but an out-of-range digit run yields the clamped 64-bit
bound instead of 0. -/
theorem C7_parse_default_amended :
    parseNumField "1,234" = 1234 ∧ parseNumField "" = 0 ∧
      parseNumField "N/A" = 0 ∧
      (∀ s : String, (goAtoi s).2 = some NumErr.errSyntax → (goAtoi s).1 = 0) ∧
      (∀ s : String, (goAtoi s).2 = some NumErr.errRange →
        (goAtoi s).1 = int64Max ∨ (goAtoi s).1 = int64Min) :=
  ⟨by decide, by decide, by decide,
    fun s h => goAtoi_syntax_val s h,
    fun s h => goAtoi_range_val s h⟩

/-- **C7, witness.** -/
theorem C7_parse_default_witness : (goAtoi "N/A").1 = 0 :=
  C7_parse_default_amended.2.2.2.1 "N/A" (by decide)

/-- **C8, counterexample.**  The invariant "stars and forks are ≥ 0
whatever the scraped text" fails when the scraped text carries a minus
sign: `Atoi` accepts a leading `-` and the record keeps the negative
value. -/
theorem C8_nonneg_counterexample :
    (extractRepo ⟨"n", some "/x", "-5", "0"⟩).stars = -5 ∧
      ¬ (0 ≤ (extractRepo ⟨"n", some "/x", "-5", "0"⟩).stars) := by
  decide

/-- **C8, amended.**  For every extracted record whose scraped star (fork)
text contains no minus sign — every text the dependents page actually
shows: digit runs with separators, or unparsable text defaulting to 0 —
the stars (forks) field is ≥ 0; and records that are all non-negative
stay non-negative through the ranking pipeline into the final output. -/
theorem C8_nonneg_amended :
    (∀ row : RowHTML,
      ('-' ∉ row.starsText.data → 0 ≤ (extractRepo row).stars) ∧
      ('-' ∉ row.forksText.data → 0 ≤ (extractRepo row).forks)) ∧
    (∀ (repos : List Repo) (rows minStar : Int) (sortedRepos result : List Repo),
      sortReposRel repos rows minStar sortedRepos result →
      (∀ x ∈ repos, 0 ≤ x.stars ∧ 0 ≤ x.forks) →
      ∀ x ∈ result, 0 ≤ x.stars ∧ 0 ≤ x.forks) := by
  constructor
  · intro row
    exact ⟨fun h => parseNumField_nonneg row.starsText h,
      fun h => parseNumField_nonneg row.forksText h⟩
  · intro repos rows minStar sortedRepos result h hall x hx
    obtain ⟨⟨hperm, _⟩, hres⟩ := h
    rw [hres] at hx
    rcases selectLoop_mem rows minStar sortedRepos [] x hx with h2 | h2
    · simp at h2
    · exact hall x (hperm.mem_iff.mpr h2.1)

/-- **C8, witness.** -/
theorem C8_nonneg_witness :
    0 ≤ (extractRepo ⟨"w", none, "1,024", "2"⟩).stars :=
  (C8_nonneg_amended.1 ⟨"w", none, "1,024", "2"⟩).1 (by decide)

/-! ## Lemmas for the JSON round trip: strings -/

/-- A hex digit the encoder writes decodes to its value. -/
theorem hexVal_hexDigitChar : ∀ x : Nat, x < 16 → hexVal (hexDigitChar x) = some x := by
  decide

/-- `Char.ofNat` returns a character of the given valid code point. -/
theorem char_toNat_ofNat (n : Nat) (h : n.isValidChar) : (Char.ofNat n).toNat = n := by
  rw [Char.ofNat, dif_pos h]
  show (BitVec.ofNatLt n _).toNat = n
  exact BitVec.toNat_ofNatLt n _

/-- `Char.ofNat` inverts `Char.toNat`. -/
theorem char_ofNat_toNat (c : Char) : Char.ofNat c.toNat = c := by
  apply Char.ext
  apply UInt32.eq_of_toBitVec_eq
  have hv : c.toNat.isValidChar := c.valid
  rw [Char.ofNat, dif_pos hv]
  show BitVec.ofNatLt c.toNat _ = c.val.toBitVec
  apply BitVec.eq_of_toNat_eq
  rw [BitVec.toNat_ofNatLt]
  rfl

/-- A `\uXXXX` escape outside the surrogate range decodes to its scalar. -/
theorem uEscape_scalar (v1 v2 v3 v4 : Nat) (cs3 : List Char)
    (k : List Char → Option (List Char × List Char))
    (h : ¬ (0xD800 ≤ ((v1 * 16 + v2) * 16 + v3) * 16 + v4 ∧
      ((v1 * 16 + v2) * 16 + v3) * 16 + v4 < 0xE000)) :
    uEscape (some v1) (some v2) (some v3) (some v4) cs3 k =
      consStr (Char.ofNat (((v1 * 16 + v2) * 16 + v3) * 16 + v4)) (k cs3) := by
  simp only [uEscape]
  rw [if_neg (by omega), if_neg (by omega)]

/-- The escaped body of a string parses back to exactly that string, with
fuel at least one past its length. -/
theorem parseStrBody_escBodyTo :
    ∀ (cs : List Char) (fuel : Nat) (rest : List Char), cs.length + 1 ≤ fuel →
      parseStrBody fuel (escBodyTo cs rest) = some (cs, rest) := by
  intro cs
  induction cs with
  | nil =>
    intro fuel rest hf
    obtain ⟨f, rfl⟩ : ∃ f, fuel = f + 1 := ⟨fuel - 1, by omega⟩
    rfl
  | cons c cs ih =>
    intro fuel rest hf
    obtain ⟨f, rfl⟩ : ∃ f, fuel = f + 1 := ⟨fuel - 1, by omega⟩
    have hf2 : cs.length + 1 ≤ f := by
      simp only [List.length_cons] at hf
      omega
    show parseStrBody (f + 1) (jsonEscapeChar c ++ escBodyTo cs rest) =
      some (c :: cs, rest)
    by_cases h1 : c = '"'
    · subst h1
      rw [show jsonEscapeChar '"' = ['\\', '"'] from rfl]
      show consStr '"' (parseStrBody f (escBodyTo cs rest)) = _
      rw [ih f rest hf2]
      rfl
    by_cases h2 : c = '\\'
    · subst h2
      rw [show jsonEscapeChar '\\' = ['\\', '\\'] from rfl]
      show consStr '\\' (parseStrBody f (escBodyTo cs rest)) = _
      rw [ih f rest hf2]
      rfl
    by_cases h3 : c = '\n'
    · subst h3
      rw [show jsonEscapeChar '\n' = ['\\', 'n'] from rfl]
      show consStr '\n' (parseStrBody f (escBodyTo cs rest)) = _
      rw [ih f rest hf2]
      rfl
    by_cases h4 : c = '\r'
    · subst h4
      rw [show jsonEscapeChar '\r' = ['\\', 'r'] from rfl]
      show consStr '\r' (parseStrBody f (escBodyTo cs rest)) = _
      rw [ih f rest hf2]
      rfl
    by_cases h5 : c = '\t'
    · subst h5
      rw [show jsonEscapeChar '\t' = ['\\', 't'] from rfl]
      show consStr '\t' (parseStrBody f (escBodyTo cs rest)) = _
      rw [ih f rest hf2]
      rfl
    by_cases h6 : c = '<' ∨ c = '>' ∨ c = '&'
    · rcases h6 with h6 | h6 | h6
      · subst h6
        rw [show jsonEscapeChar '<' = ['\\', 'u', '0', '0', '3', 'c'] from rfl]
        show uEscape (some 0) (some 0) (some 3) (some 12) (escBodyTo cs rest)
          (parseStrBody f) = _
        rw [uEscape_scalar 0 0 3 12 _ _ (by omega), ih f rest hf2]
        rfl
      · subst h6
        rw [show jsonEscapeChar '>' = ['\\', 'u', '0', '0', '3', 'e'] from rfl]
        show uEscape (some 0) (some 0) (some 3) (some 14) (escBodyTo cs rest)
          (parseStrBody f) = _
        rw [uEscape_scalar 0 0 3 14 _ _ (by omega), ih f rest hf2]
        rfl
      · subst h6
        rw [show jsonEscapeChar '&' = ['\\', 'u', '0', '0', '2', '6'] from rfl]
        show uEscape (some 0) (some 0) (some 2) (some 6) (escBodyTo cs rest)
          (parseStrBody f) = _
        rw [uEscape_scalar 0 0 2 6 _ _ (by omega), ih f rest hf2]
        rfl
    by_cases h7 : c.toNat < 0x20
    · rw [show jsonEscapeChar c =
        ['\\', 'u', '0', '0', hexDigitChar (c.toNat / 16), hexDigitChar (c.toNat % 16)]
        from by
          unfold jsonEscapeChar
          rw [if_neg h1, if_neg h2, if_neg h3, if_neg h4, if_neg h5, if_neg h6,
            if_pos h7]]
      show uEscape (hexVal '0') (hexVal '0') (hexVal (hexDigitChar (c.toNat / 16)))
        (hexVal (hexDigitChar (c.toNat % 16))) (escBodyTo cs rest) (parseStrBody f) = _
      rw [show hexVal '0' = some 0 from rfl,
        hexVal_hexDigitChar (c.toNat / 16) (by omega),
        hexVal_hexDigitChar (c.toNat % 16) (by omega),
        uEscape_scalar 0 0 (c.toNat / 16) (c.toNat % 16) _ _ (by omega),
        ih f rest hf2,
        show ((0 * 16 + 0) * 16 + c.toNat / 16) * 16 + c.toNat % 16 = c.toNat by omega,
        char_ofNat_toNat c]
      rfl
    by_cases h8 : c.toNat = 0x2028 ∨ c.toNat = 0x2029
    · have hesc : jsonEscapeChar c =
          ['\\', 'u', '2', '0', '2', hexDigitChar (c.toNat % 16)] := by
        unfold jsonEscapeChar
        rw [if_neg h1, if_neg h2, if_neg h3, if_neg h4, if_neg h5, if_neg h6,
          if_neg h7, if_pos h8]
      rcases h8 with h8 | h8
      · rw [hesc, h8]
        show uEscape (some 2) (some 0) (some 2) (some 8) (escBodyTo cs rest)
          (parseStrBody f) = _
        rw [uEscape_scalar 2 0 2 8 _ _ (by omega), ih f rest hf2]
        show some (Char.ofNat 0x2028 :: cs, rest) = _
        rw [show (0x2028 : Nat) = c.toNat from h8.symm, char_ofNat_toNat c]
      · rw [hesc, h8]
        show uEscape (some 2) (some 0) (some 2) (some 9) (escBodyTo cs rest)
          (parseStrBody f) = _
        rw [uEscape_scalar 2 0 2 9 _ _ (by omega), ih f rest hf2]
        show some (Char.ofNat 0x2029 :: cs, rest) = _
        rw [show (0x2029 : Nat) = c.toNat from h8.symm, char_ofNat_toNat c]
    · have hesc : jsonEscapeChar c = [c] := by
        unfold jsonEscapeChar
        rw [if_neg h1, if_neg h2, if_neg h3, if_neg h4, if_neg h5, if_neg h6,
          if_neg h7, if_neg h8]
      rw [hesc]
      show parseStrBody (f + 1) (c :: escBodyTo cs rest) = _
      unfold parseStrBody
      rw [if_neg h1, if_neg h2, if_neg h7, ih f rest hf2]
      rfl

/-! ## Lemmas for the JSON round trip: numbers and values -/

/-- A character is a digit exactly when its code is between 48 and 57. -/
theorem isDigit_of_toNat (c : Char) (h1 : 48 ≤ c.toNat) (h2 : c.toNat ≤ 57) :
    c.isDigit = true := by
  simp only [Char.isDigit, Bool.and_eq_true, decide_eq_true_eq, ge_iff_le]
  constructor
  · exact_mod_cast h1
  · exact_mod_cast h2

/-- Conversely, a digit's code is between 48 and 57. -/
theorem toNat_of_isDigit (c : Char) (h : c.isDigit = true) :
    48 ≤ c.toNat ∧ c.toNat ≤ 57 := by
  simp only [Char.isDigit, Bool.and_eq_true, decide_eq_true_eq, ge_iff_le] at h
  constructor
  · exact_mod_cast h.1
  · exact_mod_cast h.2

/-- The digit builder maps 0 to the empty digit list. -/
theorem natDecCharsAux_zero : ∀ fuel, natDecCharsAux fuel 0 = [] := by
  intro fuel
  cases fuel with
  | zero => rfl
  | succ f => simp [natDecCharsAux]

/-- For a positive number, the digit builder produces a non-empty digit
string without a leading zero whose decimal value is the number. -/
theorem natDecCharsAux_spec :
    ∀ (n fuel : Nat), n ≠ 0 → n ≤ fuel →
      ∃ c cs, natDecCharsAux fuel n = c :: cs ∧ c.isDigit = true ∧ ¬ (c = '0') ∧
        (∀ d ∈ cs, d.isDigit = true) ∧ digitsVal (c :: cs) = n := by
  intro n
  induction n using Nat.strong_induction_on with
  | _ n ih =>
    intro fuel hn hfuel
    obtain ⟨f, rfl⟩ : ∃ f, fuel = f + 1 := ⟨fuel - 1, by omega⟩
    rw [show natDecCharsAux (f + 1) n =
      (if n = 0 then [] else natDecCharsAux f (n / 10) ++ [Char.ofNat (48 + n % 10)])
      from rfl, if_neg hn]
    have hd : (Char.ofNat (48 + n % 10)).toNat = 48 + n % 10 :=
      char_toNat_ofNat _ (Or.inl (by omega))
    have hdig : (Char.ofNat (48 + n % 10)).isDigit = true :=
      isDigit_of_toNat _ (by omega) (by omega)
    by_cases hsmall : n < 10
    · have hq : n / 10 = 0 := Nat.div_eq_of_lt hsmall
      rw [hq, natDecCharsAux_zero, List.nil_append]
      refine ⟨Char.ofNat (48 + n % 10), [], rfl, hdig, ?_, by simp, ?_⟩
      · intro h0
        have : (Char.ofNat (48 + n % 10)).toNat = 48 := by rw [h0]; rfl
        omega
      · show List.foldl (fun a c => a * 10 + (c.toNat - 48)) 0
          [Char.ofNat (48 + n % 10)] = n
        simp only [List.foldl_cons, List.foldl_nil, hd]
        omega
    · have hm0 : n / 10 ≠ 0 := by omega
      obtain ⟨c, cs, haux, hc, hc0, hcs, hval⟩ :=
        ih (n / 10) (by omega) f hm0 (by omega)
      refine ⟨c, cs ++ [Char.ofNat (48 + n % 10)], ?_, hc, hc0, ?_, ?_⟩
      · rw [haux, List.cons_append]
      · intro d hdm
        rcases List.mem_append.mp hdm with h | h
        · exact hcs d h
        · simp only [List.mem_singleton] at h
          rw [h]
          exact hdig
      · show digitsVal ((c :: cs) ++ [Char.ofNat (48 + n % 10)]) = n
        unfold digitsVal at hval ⊢
        rw [List.foldl_append, hval]
        simp only [List.foldl_cons, List.foldl_nil, hd]
        omega

/-- The decimal rendering of a positive number: non-empty digits, no
leading zero, decimal value the number. -/
theorem natDecChars_spec (n : Nat) (hn : n ≠ 0) :
    ∃ c cs, natDecChars n = c :: cs ∧ c.isDigit = true ∧ ¬ (c = '0') ∧
      (∀ d ∈ cs, d.isDigit = true) ∧ digitsVal (c :: cs) = n := by
  unfold natDecChars
  rw [if_neg hn]
  exact natDecCharsAux_spec n n hn le_rfl


/-- Bool test used by the number lemmas: the input does not continue a
number (no digit, no fraction dot, no exponent letter at its head). -/
def numBoundary : List Char → Bool
  | [] => true
  | c :: _ => !(c.isDigit || decide (c = '.') || decide (c = 'e') || decide (c = 'E'))

/-- A digit differs from any non-digit character. -/
theorem isDigit_ne_of (c x : Char) (h : c.isDigit = true) (hx : x.isDigit = false) :
    ¬ (c = x) := by
  intro he
  rw [he, hx] at h
  exact Bool.false_ne_true h

/-- Printable ASCII is not JSON whitespace. -/
theorem not_ws_ascii (c : Char) (h1 : 33 ≤ c.toNat) (h2 : c.toNat ≤ 126) :
    isJsonWS c = false := by
  apply decide_eq_false
  intro hor
  rcases hor with h | h | h | h | h | h | h | h | h | h | h | h | h | h | h
  all_goals first
    | omega
    | (subst h; exact absurd h1 (by decide))
    | (exact absurd h1 (by decide))

/-- `Atoi` inverts the decimal rendering of any in-range integer. -/
theorem goAtoiChars_intDecChars (i : Int) (h1 : int64Min ≤ i) (h2 : i ≤ int64Max) :
    goAtoiChars (intDecChars i) = (i, none) := by
  simp only [int64Min] at h1
  simp only [int64Max] at h2
  unfold intDecChars
  by_cases hneg : i < 0
  · rw [if_pos hneg]
    have hn0 : i.natAbs ≠ 0 := by omega
    obtain ⟨c, cs, hnd, hc, _, hcs, hval⟩ := natDecChars_spec i.natAbs hn0
    rw [hnd]
    show goAtoiCore true (c :: cs) = (i, none)
    unfold goAtoiCore
    rw [if_neg (by simp)]
    have hall : (c :: cs).all Char.isDigit = true := by
      rw [List.all_eq_true]
      intro d hd
      rcases List.mem_cons.mp hd with h | h
      · rw [h]; exact hc
      · exact hcs d h
    rw [if_neg (not_not_intro hall), hval]
    show goClamp (-(i.natAbs : Int)) = (i, none)
    have heq : -(i.natAbs : Int) = i := by omega
    rw [heq]
    unfold goClamp int64Min int64Max
    rw [if_neg (by omega), if_neg (by omega)]
  · rw [if_neg hneg]
    by_cases hn0 : i.natAbs = 0
    · have hi0 : i = 0 := by omega
      subst hi0
      rfl
    · obtain ⟨c, cs, hnd, hc, _, hcs, hval⟩ := natDecChars_spec i.natAbs hn0
      rw [hnd]
      show goAtoiChars (c :: cs) = (i, none)
      rw [show goAtoiChars (c :: cs) =
        (if c = '-' then goAtoiCore true cs
         else if c = '+' then goAtoiCore false cs
         else goAtoiCore false (c :: cs)) from rfl]
      rw [if_neg (isDigit_ne_of c '-' hc (by decide)),
        if_neg (isDigit_ne_of c '+' hc (by decide))]
      unfold goAtoiCore
      rw [if_neg (by simp)]
      have hall : (c :: cs).all Char.isDigit = true := by
        rw [List.all_eq_true]
        intro d hd
        rcases List.mem_cons.mp hd with h | h
        · rw [h]; exact hc
        · exact hcs d h
      rw [if_neg (not_not_intro hall), hval]
      show goClamp ((i.natAbs : Int)) = (i, none)
      have heq : ((i.natAbs : Int)) = i := by omega
      rw [heq]
      unfold goClamp int64Min int64Max
      rw [if_neg (by omega), if_neg (by omega)]

/-- A digit run stops exactly at a non-digit. -/
theorem parseDigits_append (ds rest : List Char) (hds : ∀ d ∈ ds, d.isDigit = true)
    (hrest : headIsDigit rest = false) :
    parseDigits (ds ++ rest) = (ds, rest) := by
  induction ds with
  | nil =>
    cases rest with
    | nil => rfl
    | cons c t =>
      show parseDigits (c :: t) = ([], c :: t)
      unfold parseDigits
      rw [if_neg (by simp [headIsDigit] at hrest; simp [hrest])]
  | cons d ds ih =>
    rw [List.cons_append]
    unfold parseDigits
    rw [if_pos (hds d (List.mem_cons_self d ds))]
    rw [ih (fun x hx => hds x (List.mem_cons_of_mem d hx))]

/-- A number boundary never starts with a digit. -/
theorem numBoundary_parts (c : Char) (t : List Char)
    (hb : numBoundary (c :: t) = true) :
    c.isDigit = false ∧ ¬ (c = '.') ∧ ¬ (c = 'e') ∧ ¬ (c = 'E') := by
  have hb2 : (c.isDigit || decide (c = '.') || decide (c = 'e') || decide (c = 'E'))
      = false := by
    have h3 := hb
    unfold numBoundary at h3
    simpa using h3
  simp only [Bool.or_eq_false_iff] at hb2
  obtain ⟨⟨⟨hd, hdot⟩, he⟩, hE⟩ := hb2
  exact ⟨hd, of_decide_eq_false hdot, of_decide_eq_false he, of_decide_eq_false hE⟩

/-- A number boundary never starts with a digit. -/
theorem headIsDigit_of_numBoundary (rest : List Char) (hb : numBoundary rest = true) :
    headIsDigit rest = false := by
  cases rest with
  | nil => rfl
  | cons c t =>
    show c.isDigit = false
    exact (numBoundary_parts c t hb).1

/-- After a number boundary there is no fraction part. -/
theorem parseFracPart_boundary (rest : List Char) (hb : numBoundary rest = true) :
    parseFracPart rest = some ([], rest) := by
  cases rest with
  | nil => rfl
  | cons c t =>
    simp only [parseFracPart]
    rw [if_neg (numBoundary_parts c t hb).2.1]

/-- After a number boundary there is no exponent part. -/
theorem parseExpPart_boundary (rest : List Char) (hb : numBoundary rest = true) :
    parseExpPart rest = some ([], rest) := by
  cases rest with
  | nil => rfl
  | cons c t =>
    simp only [parseExpPart]
    rw [if_neg ?hcond]
    case hcond =>
      obtain ⟨_, _, he, hE⟩ := numBoundary_parts c t hb
      intro hor
      rcases hor with h | h
      · exact he h
      · exact hE h


/-- The integer part of an emitted number parses back exactly. -/
theorem parseIntPart_natDecChars (n : Nat) (rest : List Char)
    (hb : numBoundary rest = true) :
    parseIntPart (natDecChars n ++ rest) = some (natDecChars n, rest) := by
  by_cases hn : n = 0
  · subst hn
    show parseIntPart ('0' :: rest) = some (['0'], rest)
    simp only [parseIntPart]
    rw [if_pos trivial, headIsDigit_of_numBoundary rest hb]
    rfl
  · obtain ⟨c, cs, hnd, hc, hc0, hcs, _⟩ := natDecChars_spec n hn
    rw [hnd, List.cons_append]
    simp only [parseIntPart]
    rw [if_neg hc0, if_pos hc,
      parseDigits_append cs rest hcs (headIsDigit_of_numBoundary rest hb)]

/-- The emitted decimal integer parses back as one number literal. -/
theorem parseNumLit_intDecChars (i : Int) (rest : List Char)
    (hb : numBoundary rest = true) :
    parseNumLit (intDecChars i ++ rest) = some (intDecChars i, rest) := by
  unfold intDecChars
  by_cases hneg : i < 0
  · rw [if_pos hneg, List.cons_append]
    simp only [parseNumLit]
    rw [if_pos trivial]
    simp only [parseIntPart_natDecChars i.natAbs rest hb,
      parseFracPart_boundary rest hb, parseExpPart_boundary rest hb,
      List.append_nil]
  · rw [if_neg hneg]
    have hex : ∃ c cs, natDecChars i.natAbs = c :: cs ∧ c.isDigit = true := by
      by_cases hn : i.natAbs = 0
      · exact ⟨'0', [], by rw [hn]; rfl, by decide⟩
      · obtain ⟨c, cs, hnd, hc, _, _, _⟩ := natDecChars_spec i.natAbs hn
        exact ⟨c, cs, hnd, hc⟩
    obtain ⟨c, cs, hnd, hc⟩ := hex
    rw [hnd, List.cons_append]
    simp only [parseNumLit]
    rw [if_neg (isDigit_ne_of c '-' hc (by decide)), ← List.cons_append, ← hnd]
    simp only [parseIntPart_natDecChars i.natAbs rest hb,
      parseFracPart_boundary rest hb, parseExpPart_boundary rest hb,
      List.append_nil]

/-- Whitespace before a value is skipped. -/
theorem parseJVal_skip_space (fuel : Nat) (X : List Char) :
    parseJVal (fuel + 1) (' ' :: X) = parseJVal (fuel + 1) X := rfl

/-- A newline before a value is skipped. -/
theorem parseJVal_skip_newline (fuel : Nat) (X : List Char) :
    parseJVal (fuel + 1) ('\n' :: X) = parseJVal (fuel + 1) X := rfl

/-- An emitted integer value parses as a number literal token. -/
theorem parseJVal_intTo (fuel : Nat) (i : Int) (rest : List Char)
    (hb : numBoundary rest = true) :
    parseJVal (fuel + 1) (intTo i rest) = some (JVal.jnum (intDecChars i), rest) := by
  have hlit := parseNumLit_intDecChars i rest hb
  unfold intTo
  by_cases hneg : i < 0
  · have hh : intDecChars i = '-' :: natDecChars i.natAbs := by
      unfold intDecChars
      rw [if_pos hneg]
    rw [hh] at hlit
    rw [hh, List.cons_append]
    show (match parseNumLit ('-' :: (natDecChars i.natAbs ++ rest)) with
          | some (lit, r) => some (JVal.jnum lit, r)
          | none => none) = some (JVal.jnum ('-' :: natDecChars i.natAbs), rest)
    rw [← List.cons_append, hlit]
  · have hex : ∃ c cs, natDecChars i.natAbs = c :: cs ∧ c.isDigit = true := by
      by_cases hn : i.natAbs = 0
      · exact ⟨'0', [], by rw [hn]; rfl, by decide⟩
      · obtain ⟨c, cs, hnd, hc, _, _, _⟩ := natDecChars_spec i.natAbs hn
        exact ⟨c, cs, hnd, hc⟩
    obtain ⟨c, cs, hnd, hc⟩ := hex
    have hh : intDecChars i = c :: cs := by
      unfold intDecChars
      rw [if_neg hneg, hnd]
    rw [hh] at hlit
    rw [hh, List.cons_append]
    obtain ⟨ht1, ht2⟩ := toNat_of_isDigit c hc
    have hws : isJsonWS c = false := not_ws_ascii c (by omega) (by omega)
    have hskip : skipWS (c :: (cs ++ rest)) = c :: (cs ++ rest) := by
      show (if isJsonWS c then skipWS (cs ++ rest) else c :: (cs ++ rest)) = _
      rw [hws]
      rfl
    simp only [parseJVal, hskip]
    rw [if_neg (isDigit_ne_of c 'n' hc (by decide)),
      if_neg (isDigit_ne_of c 't' hc (by decide)),
      if_neg (isDigit_ne_of c 'f' hc (by decide)),
      if_neg (isDigit_ne_of c '"' hc (by decide)),
      if_neg (isDigit_ne_of c '[' hc (by decide)),
      if_neg (isDigit_ne_of c (Char.ofNat 123) hc (by decide)),
      ← List.cons_append, hlit]

/-- Escaping a string only lengthens it. -/
theorem escBodyTo_length (cs rest : List Char) :
    cs.length + rest.length + 1 ≤ (escBodyTo cs rest).length := by
  induction cs with
  | nil => simp [escBodyTo]
  | cons c cs ih =>
    have h1 : 1 ≤ (jsonEscapeChar c).length := by
      unfold jsonEscapeChar
      split_ifs <;> simp
    simp only [escBodyTo, List.length_append, List.length_cons]
    omega

theorem parseJVal_quoteTo (fuel : Nat) (s : String) (T : List Char) :
    parseJVal (fuel + 1) (quoteTo s T) = some (JVal.jstr s.data, T) := by
  show (match parseStrBody ((escBodyTo s.data T).length + 1) (escBodyTo s.data T) with
        | some (body, rest) => some (JVal.jstr body, rest)
        | none => none) = some (JVal.jstr s.data, T)
  rw [parseStrBody_escBodyTo s.data _ T (by have := escBodyTo_length s.data T; omega)]


/-- Members are parsed after any leading newline. -/
theorem parseJMembers_skip_newline (fuel : Nat) (X : List Char)
    (acc : List (List Char × JVal)) :
    parseJMembers (fuel + 1) ('\n' :: X) acc = parseJMembers (fuel + 1) X acc := rfl

/-- Parsing the `"forks"` member line closes the object. -/
theorem parseJMembers_memForks (f : Nat) (r : Repo) (Z : List Char)
    (acc : List (List Char × JVal)) :
    parseJMembers (f + 2) (memForks r Z) acc =
      some (JVal.jobj (acc ++
        [(['f', 'o', 'r', 'k', 's'], JVal.jnum (intDecChars r.forks))]), Z) := by
  have hval := parseJVal_intTo f r.forks ('\n' :: ' ' :: ' ' :: '}' :: Z) rfl
  show (match parseJVal (f + 1) (' ' :: intTo r.forks ('\n' :: ' ' :: ' ' :: '}' :: Z)) with
        | some (v, rest3) =>
          match skipWS rest3 with
          | ',' :: rest4 =>
            parseJMembers (f + 1) rest4 (acc ++ [(['f', 'o', 'r', 'k', 's'], v)])
          | '}' :: rest4 =>
            some (JVal.jobj (acc ++ [(['f', 'o', 'r', 'k', 's'], v)]), rest4)
          | _ => none
        | none => none) =
      some (JVal.jobj (acc ++
        [(['f', 'o', 'r', 'k', 's'], JVal.jnum (intDecChars r.forks))]), Z)
  rw [parseJVal_skip_space f, hval]
  rfl

/-- Parsing the `"stars"` member line and the rest of the object. -/
theorem parseJMembers_memStars (f : Nat) (r : Repo) (Z : List Char)
    (acc : List (List Char × JVal)) :
    parseJMembers (f + 3) (memStars r Z) acc =
      some (JVal.jobj (acc ++
        [(['s', 't', 'a', 'r', 's'], JVal.jnum (intDecChars r.stars)),
         (['f', 'o', 'r', 'k', 's'], JVal.jnum (intDecChars r.forks))]), Z) := by
  have hval := parseJVal_intTo (f + 1) r.stars (',' :: '\n' :: memForks r Z) rfl
  show (match parseJVal (f + 2) (' ' :: intTo r.stars (',' :: '\n' :: memForks r Z)) with
        | some (v, rest3) =>
          match skipWS rest3 with
          | ',' :: rest4 =>
            parseJMembers (f + 2) rest4 (acc ++ [(['s', 't', 'a', 'r', 's'], v)])
          | '}' :: rest4 =>
            some (JVal.jobj (acc ++ [(['s', 't', 'a', 'r', 's'], v)]), rest4)
          | _ => none
        | none => none) =
      some (JVal.jobj (acc ++
        [(['s', 't', 'a', 'r', 's'], JVal.jnum (intDecChars r.stars)),
         (['f', 'o', 'r', 'k', 's'], JVal.jnum (intDecChars r.forks))]), Z)
  rw [parseJVal_skip_space (f + 1), hval]
  show parseJMembers (f + 2) ('\n' :: memForks r Z)
      (acc ++ [(['s', 't', 'a', 'r', 's'], JVal.jnum (intDecChars r.stars))]) = _
  rw [parseJMembers_skip_newline (f + 1), parseJMembers_memForks f r Z, List.append_assoc]
  rfl

/-- Parsing the `"url"` member line and the rest of the object. -/
theorem parseJMembers_memUrl (f : Nat) (r : Repo) (Z : List Char)
    (acc : List (List Char × JVal)) :
    parseJMembers (f + 4) (memUrl r Z) acc =
      some (JVal.jobj (acc ++
        [(['u', 'r', 'l'], JVal.jstr r.url.data),
         (['s', 't', 'a', 'r', 's'], JVal.jnum (intDecChars r.stars)),
         (['f', 'o', 'r', 'k', 's'], JVal.jnum (intDecChars r.forks))]), Z) := by
  have hval := parseJVal_quoteTo (f + 2) r.url (',' :: '\n' :: memStars r Z)
  show (match parseJVal (f + 3) (' ' :: quoteTo r.url (',' :: '\n' :: memStars r Z)) with
        | some (v, rest3) =>
          match skipWS rest3 with
          | ',' :: rest4 =>
            parseJMembers (f + 3) rest4 (acc ++ [(['u', 'r', 'l'], v)])
          | '}' :: rest4 =>
            some (JVal.jobj (acc ++ [(['u', 'r', 'l'], v)]), rest4)
          | _ => none
        | none => none) =
      some (JVal.jobj (acc ++
        [(['u', 'r', 'l'], JVal.jstr r.url.data),
         (['s', 't', 'a', 'r', 's'], JVal.jnum (intDecChars r.stars)),
         (['f', 'o', 'r', 'k', 's'], JVal.jnum (intDecChars r.forks))]), Z)
  rw [parseJVal_skip_space (f + 2), hval]
  show parseJMembers (f + 3) ('\n' :: memStars r Z)
      (acc ++ [(['u', 'r', 'l'], JVal.jstr r.url.data)]) = _
  rw [parseJMembers_skip_newline (f + 2), parseJMembers_memStars f r Z, List.append_assoc]
  rfl

/-- Parsing the `"name"` member line and the rest of the object. -/
theorem parseJMembers_memName (f : Nat) (r : Repo) (Z : List Char)
    (acc : List (List Char × JVal)) :
    parseJMembers (f + 5) (memName r Z) acc =
      some (JVal.jobj (acc ++
        [(['n', 'a', 'm', 'e'], JVal.jstr r.name.data),
         (['u', 'r', 'l'], JVal.jstr r.url.data),
         (['s', 't', 'a', 'r', 's'], JVal.jnum (intDecChars r.stars)),
         (['f', 'o', 'r', 'k', 's'], JVal.jnum (intDecChars r.forks))]), Z) := by
  have hval := parseJVal_quoteTo (f + 3) r.name (',' :: '\n' :: memUrl r Z)
  show (match parseJVal (f + 4) (' ' :: quoteTo r.name (',' :: '\n' :: memUrl r Z)) with
        | some (v, rest3) =>
          match skipWS rest3 with
          | ',' :: rest4 =>
            parseJMembers (f + 4) rest4 (acc ++ [(['n', 'a', 'm', 'e'], v)])
          | '}' :: rest4 =>
            some (JVal.jobj (acc ++ [(['n', 'a', 'm', 'e'], v)]), rest4)
          | _ => none
        | none => none) =
      some (JVal.jobj (acc ++
        [(['n', 'a', 'm', 'e'], JVal.jstr r.name.data),
         (['u', 'r', 'l'], JVal.jstr r.url.data),
         (['s', 't', 'a', 'r', 's'], JVal.jnum (intDecChars r.stars)),
         (['f', 'o', 'r', 'k', 's'], JVal.jnum (intDecChars r.forks))]), Z)
  rw [parseJVal_skip_space (f + 3), hval]
  show parseJMembers (f + 4) ('\n' :: memUrl r Z)
      (acc ++ [(['n', 'a', 'm', 'e'], JVal.jstr r.name.data)]) = _
  rw [parseJMembers_skip_newline (f + 3), parseJMembers_memUrl f r Z, List.append_assoc]
  rfl

/-- One emitted element object parses to its four-field `JVal`. -/
theorem parseJVal_repoObjTo (f : Nat) (r : Repo) (Z : List Char) :
    parseJVal (f + 6) (repoObjTo r Z) = some (repoJVal r, Z) := by
  show parseJMembers (f + 5) ('\n' :: memName r Z) [] = some (repoJVal r, Z)
  rw [parseJMembers_skip_newline (f + 4), parseJMembers_memName f r Z]
  rfl


/-- Hypothesis form of the object lemma: any fuel of at least 6 parses an
emitted element object. -/
theorem parseJVal_repoObjTo_le (r : Repo) (Z : List Char) (fuel : Nat)
    (h : 6 ≤ fuel) : parseJVal fuel (repoObjTo r Z) = some (repoJVal r, Z) := by
  have h2 := parseJVal_repoObjTo (fuel - 6) r Z
  rwa [Nat.sub_add_cancel h] at h2

/-- Hypothesis form of newline skipping. -/
theorem parseJVal_skip_newline_le (fuel : Nat) (h : 1 ≤ fuel) (X : List Char) :
    parseJVal fuel ('\n' :: X) = parseJVal fuel X := by
  obtain ⟨g, rfl⟩ : ∃ g, fuel = g + 1 := ⟨fuel - 1, by omega⟩
  rfl

/-- The elements of a non-empty emitted array parse to the element values
and consume the closing bracket. -/
theorem parseJItems_repoItemsTo :
    ∀ (l : List Repo) (fuel : Nat) (Z : List Char) (acc : List JVal),
      l ≠ [] → l.length + 6 ≤ fuel →
      parseJItems fuel ('\n' :: repoItemsTo l Z) acc =
        some (JVal.jarr (acc ++ l.map repoJVal), Z) := by
  intro l
  induction l with
  | nil => intro fuel Z acc hne _; exact absurd rfl hne
  | cons r l2 ih =>
    intro fuel Z acc _ hge
    simp only [List.length_cons] at hge
    obtain ⟨g, rfl⟩ : ∃ g, fuel = g + 1 := ⟨fuel - 1, by omega⟩
    cases l2 with
    | nil =>
      show (match parseJVal g ('\n' :: repoItemsTo [r] Z) with
            | some (v, rest) =>
              match skipWS rest with
              | ',' :: rest2 => parseJItems g rest2 (acc ++ [v])
              | ']' :: rest2 => some (JVal.jarr (acc ++ [v]), rest2)
              | _ => none
            | none => none) = some (JVal.jarr (acc ++ [r].map repoJVal), Z)
      rw [show ('\n' :: repoItemsTo [r] Z) =
          ('\n' :: repoObjTo r ('\n' :: ']' :: Z)) from rfl,
        parseJVal_skip_newline_le g (by omega),
        parseJVal_repoObjTo_le r ('\n' :: ']' :: Z) g (by omega)]
      rfl
    | cons r2 rs =>
      show (match parseJVal g ('\n' :: repoItemsTo (r :: r2 :: rs) Z) with
            | some (v, rest) =>
              match skipWS rest with
              | ',' :: rest2 => parseJItems g rest2 (acc ++ [v])
              | ']' :: rest2 => some (JVal.jarr (acc ++ [v]), rest2)
              | _ => none
            | none => none) =
        some (JVal.jarr (acc ++ (r :: r2 :: rs).map repoJVal), Z)
      rw [show ('\n' :: repoItemsTo (r :: r2 :: rs) Z) =
          ('\n' :: repoObjTo r (',' :: '\n' :: repoItemsTo (r2 :: rs) Z)) from rfl,
        parseJVal_skip_newline_le g (by omega),
        parseJVal_repoObjTo_le r (',' :: '\n' :: repoItemsTo (r2 :: rs) Z) g (by omega)]
      show parseJItems g ('\n' :: repoItemsTo (r2 :: rs) Z) (acc ++ [repoJVal r]) =
        some (JVal.jarr (acc ++ (r :: r2 :: rs).map repoJVal), Z)
      rw [ih g Z (acc ++ [repoJVal r]) (by simp)
        (by simp only [List.length_cons] at hge ⊢; omega)]
      simp [List.append_assoc]

/-- A non-empty emitted array parses to the list of element values. -/
theorem parseJVal_marshal_nonempty (r0 : Repo) (l2 : List Repo) (fuel : Nat)
    (Z : List Char) (hge : (r0 :: l2).length + 7 ≤ fuel) :
    parseJVal fuel ('[' :: '\n' :: repoItemsTo (r0 :: l2) Z) =
      some (JVal.jarr ((r0 :: l2).map repoJVal), Z) := by
  simp only [List.length_cons] at hge
  obtain ⟨g, rfl⟩ : ∃ g, fuel = g + 1 := ⟨fuel - 1, by omega⟩
  cases l2 with
  | nil =>
    show parseJItems g ('\n' :: repoItemsTo [r0] Z) [] =
      some (JVal.jarr ([r0].map repoJVal), Z)
    rw [parseJItems_repoItemsTo [r0] g Z [] (by simp) (by simp; omega)]
    rw [List.nil_append]
  | cons r2 rs =>
    show parseJItems g ('\n' :: repoItemsTo (r0 :: r2 :: rs) Z) [] =
      some (JVal.jarr ((r0 :: r2 :: rs).map repoJVal), Z)
    rw [parseJItems_repoItemsTo (r0 :: r2 :: rs) g Z [] (by simp)
      (by simp only [List.length_cons] at hge ⊢; omega)]
    rw [List.nil_append]


/-- The string builder is continuation-compatible with append. -/
theorem escBodyTo_append (cs : List Char) :
    ∀ (A B : List Char), escBodyTo cs A ++ B = escBodyTo cs (A ++ B) := by
  induction cs with
  | nil => intro A B; rfl
  | cons c cs ih =>
    intro A B
    show (jsonEscapeChar c ++ escBodyTo cs A) ++ B = jsonEscapeChar c ++ escBodyTo cs (A ++ B)
    rw [List.append_assoc, ih A B]

/-- The object builder is continuation-compatible with append. -/
theorem repoObjTo_append (r : Repo) (A B : List Char) :
    repoObjTo r A ++ B = repoObjTo r (A ++ B) := by
  simp only [repoObjTo, memName, memUrl, memStars, memForks, quoteTo, intTo,
    List.cons_append, List.append_assoc, escBodyTo_append]

/-- The element-list builder is continuation-compatible with append. -/
theorem repoItemsTo_append :
    ∀ (l : List Repo) (A B : List Char), repoItemsTo l A ++ B = repoItemsTo l (A ++ B) := by
  intro l
  induction l with
  | nil => intro A B; rfl
  | cons r l2 ih =>
    intro A B
    cases l2 with
    | nil =>
      show repoObjTo r ('\n' :: ']' :: A) ++ B = repoObjTo r ('\n' :: ']' :: (A ++ B))
      rw [repoObjTo_append]
      rfl
    | cons r2 rs =>
      show repoObjTo r (',' :: '\n' :: repoItemsTo (r2 :: rs) A) ++ B =
        repoObjTo r (',' :: '\n' :: repoItemsTo (r2 :: rs) (A ++ B))
      rw [repoObjTo_append, ← ih A B]
      rfl

/-- Emitted integers are never empty. -/
theorem intDecChars_ne_nil (i : Int) : intDecChars i ≠ [] := by
  unfold intDecChars
  by_cases hneg : i < 0
  · rw [if_pos hneg]; simp
  · rw [if_neg hneg]
    unfold natDecChars
    by_cases hn : i.natAbs = 0
    · rw [if_pos hn]; simp
    · rw [if_neg hn]
      obtain ⟨c, cs, hnd, _, _, _, _⟩ := natDecCharsAux_spec i.natAbs i.natAbs hn le_rfl
      rw [hnd]
      simp

/-- Each element object adds at least eight characters. -/
theorem repoObjTo_length (r : Repo) (X : List Char) :
    X.length + 8 ≤ (repoObjTo r X).length := by
  have h1 := escBodyTo_length r.name.data (',' :: '\n' :: memUrl r X)
  have h2 := escBodyTo_length r.url.data (',' :: '\n' :: memStars r X)
  have h3 : 1 ≤ (intDecChars r.stars).length := by
    have := intDecChars_ne_nil r.stars
    cases hh : intDecChars r.stars with
    | nil => exact absurd hh this
    | cons a t => simp
  have h4 : 1 ≤ (intDecChars r.forks).length := by
    have := intDecChars_ne_nil r.forks
    cases hh : intDecChars r.forks with
    | nil => exact absurd hh this
    | cons a t => simp
  simp only [repoObjTo, memName, memUrl, memStars, memForks, quoteTo, intTo,
    List.length_cons, List.length_append] at h1 h2 ⊢
  omega

/-- The element list is at least two characters per element plus closer. -/
theorem repoItemsTo_length :
    ∀ (l : List Repo) (Z : List Char), l ≠ [] →
      l.length + 2 + Z.length ≤ (repoItemsTo l Z).length := by
  intro l
  induction l with
  | nil => intro Z h; exact absurd rfl h
  | cons r l2 ih =>
    intro Z _
    cases l2 with
    | nil =>
      have := repoObjTo_length r ('\n' :: ']' :: Z)
      show [r].length + 2 + Z.length ≤ (repoObjTo r ('\n' :: ']' :: Z)).length
      simp only [List.length_cons, List.length_nil] at this ⊢
      omega
    | cons r2 rs =>
      have hob := repoObjTo_length r (',' :: '\n' :: repoItemsTo (r2 :: rs) Z)
      have hih := ih Z (by simp)
      show (r :: r2 :: rs).length + 2 + Z.length ≤
        (repoObjTo r (',' :: '\n' :: repoItemsTo (r2 :: rs) Z)).length
      simp only [List.length_cons] at hob hih ⊢
      omega

/-- `Unmarshal` fills the `stars` field from an emitted in-range number. -/
theorem setField_stars (r : Repo) (i : Int) (h1 : int64Min ≤ i) (h2 : i ≤ int64Max) :
    setField r ['s', 't', 'a', 'r', 's'] (JVal.jnum (intDecChars i)) =
      some { r with stars := i } := by
  show (match goAtoiChars (intDecChars i) with
        | (n, none) => some (⟨r.name, r.url, n, r.forks⟩ : Repo)
        | _ => none) = some { r with stars := i }
  rw [goAtoiChars_intDecChars i h1 h2]

/-- `Unmarshal` fills the `forks` field from an emitted in-range number. -/
theorem setField_forks (r : Repo) (i : Int) (h1 : int64Min ≤ i) (h2 : i ≤ int64Max) :
    setField r ['f', 'o', 'r', 'k', 's'] (JVal.jnum (intDecChars i)) =
      some { r with forks := i } := by
  show (match goAtoiChars (intDecChars i) with
        | (n, none) => some (⟨r.name, r.url, r.stars, n⟩ : Repo)
        | _ => none) = some { r with forks := i }
  rw [goAtoiChars_intDecChars i h1 h2]

/-- Rebuilding a string from its characters is the identity. -/
theorem string_mk_data (s : String) : String.mk s.data = s := rfl

/-- Decoding the parsed element object recovers the record. -/
theorem jvalToRepo_repoJVal (r : Repo) (hWF : RepoWF r) :
    jvalToRepo (repoJVal r) = some r := by
  obtain ⟨hs1, hs2, hf1, hf2⟩ := hWF
  show applyFields ⟨String.mk r.name.data, String.mk r.url.data, 0, 0⟩
    [(['s', 't', 'a', 'r', 's'], JVal.jnum (intDecChars r.stars)),
     (['f', 'o', 'r', 'k', 's'], JVal.jnum (intDecChars r.forks))] = some r
  show (match setField ⟨String.mk r.name.data, String.mk r.url.data, 0, 0⟩
          ['s', 't', 'a', 'r', 's'] (JVal.jnum (intDecChars r.stars)) with
        | some r2 => applyFields r2
            [(['f', 'o', 'r', 'k', 's'], JVal.jnum (intDecChars r.forks))]
        | none => none) = some r
  rw [setField_stars _ r.stars hs1 hs2]
  show (match setField ⟨String.mk r.name.data, String.mk r.url.data, r.stars, 0⟩
          ['f', 'o', 'r', 'k', 's'] (JVal.jnum (intDecChars r.forks)) with
        | some r2 => applyFields r2 []
        | none => none) = some r
  rw [setField_forks _ r.forks hf1 hf2]
  show some (⟨String.mk r.name.data, String.mk r.url.data, r.stars, r.forks⟩ : Repo) = some r
  rw [string_mk_data, string_mk_data]

/-- Decoding all parsed elements recovers the record list. -/
theorem jvalElemsToRepos_map :
    ∀ (l : List Repo), (∀ r ∈ l, RepoWF r) →
      jvalElemsToRepos (l.map repoJVal) = some l := by
  intro l
  induction l with
  | nil => intro _; rfl
  | cons r l2 ih =>
    intro h
    show (match jvalToRepo (repoJVal r), jvalElemsToRepos (l2.map repoJVal) with
          | some x, some rs => some (x :: rs)
          | _, _ => none) = some (r :: l2)
    rw [jvalToRepo_repoJVal r (h r (List.mem_cons_self r l2)),
      ih (fun x hx => h x (List.mem_cons_of_mem r hx))]

/-- The full JSON round trip: what `displayJSON` prints for any record
list whose numeric fields fit Go's `int` decodes back to the same list. -/
theorem goUnmarshal_goDisplay (l : List Repo) (hWF : ∀ r ∈ l, RepoWF r) :
    goUnmarshalRepos (goDisplayJSONOutput l) = some l := by
  cases l with
  | nil => rfl
  | cons r l2 =>
    have hdata : (goDisplayJSONOutput (r :: l2)).data =
        '[' :: '\n' :: repoItemsTo (r :: l2) ['\n'] := by
      show (('[' :: '\n' :: repoItemsTo (r :: l2) []) ++ ['\n']) = _
      rw [List.cons_append, List.cons_append, repoItemsTo_append (r :: l2) [] ['\n']]
      rfl
    have hlen : (r :: l2).length + 7 ≤
        2 * (goDisplayJSONOutput (r :: l2)).data.length + 2 := by
      rw [hdata]
      have := repoItemsTo_length (r :: l2) ['\n'] (by simp)
      simp only [List.length_cons] at this ⊢
      omega
    unfold goUnmarshalRepos
    rw [hdata] at hlen ⊢
    rw [parseJVal_marshal_nonempty r l2 _ ['\n'] hlen]
    show (if skipWS ['\n'] = [] then jvalToRepos (JVal.jarr ((r :: l2).map repoJVal))
      else none) = some (r :: l2)
    rw [if_pos (show skipWS ['\n'] = [] from rfl)]
    show jvalElemsToRepos ((r :: l2).map repoJVal) = some (r :: l2)
    exact jvalElemsToRepos_map (r :: l2) hWF


/-! ## Claim C9: the JSON rendering and its round trip -/

/-- **C9, counterexample.**  The empty ranked sequence — the nil slice
`sortRepos` returns when it kept nothing — marshals as `null`, so the
printed output is `null` and a newline, not a JSON array (no leading
bracket). -/
theorem C9_json_counterexample :
    goDisplayJSONOutput [] = "null\n" ∧
      (goDisplayJSONOutput []).data.head? ≠ some ('[' : Char) := by
  decide

/-- **C9, amended.**  Every ranked sequence whose numeric fields fit Go's
`int` (true of all records the program builds) prints as JSON that decodes
back field-for-field to the same records; a non-empty sequence prints as
the two-space-indented array of `name`/`url`/`stars`/`forks` objects
followed by a newline; the empty sequence prints as `null` followed by a
newline instead of an array. -/
theorem C9_json_roundtrip_amended :
    (∀ l : List Repo, (∀ r ∈ l, RepoWF r) →
       goUnmarshalRepos (goDisplayJSONOutput l) = some l) ∧
    goDisplayJSONOutput [] = "null\n" ∧
    (∀ (r0 : Repo) (l2 : List Repo),
       (goDisplayJSONOutput (r0 :: l2)).data =
         '[' :: '\n' :: repoItemsTo (r0 :: l2) ['\n']) := by
  refine ⟨goUnmarshal_goDisplay, by decide, ?_⟩
  intro r0 l2
  show (('[' :: '\n' :: repoItemsTo (r0 :: l2) []) ++ ['\n']) = _
  rw [List.cons_append, List.cons_append, repoItemsTo_append (r0 :: l2) [] ['\n']]
  rfl

/-- **C9, witness.** -/
theorem C9_json_roundtrip_witness :
    goUnmarshalRepos (goDisplayJSONOutput
        [⟨"alpha", "https://github.com/a", 50, 7⟩]) =
      some [⟨"alpha", "https://github.com/a", 50, 7⟩] :=
  C9_json_roundtrip_amended.1 [⟨"alpha", "https://github.com/a", 50, 7⟩] (by decide)

end Topdep
